import Mathlib

/-!
# Verification of the Tcl Go bridge's virtual file system layer (vfs.go)

This development shallowly embeds the mount table, path resolution, and the
filesystem/channel driver hooks of `vfs.go`, together with the parts of the Go
standard library they call (`path.Clean`, `sort.Search`, `sort.Strings`,
`strings.HasPrefix`, `strings.HasSuffix`), and proves properties of them.

Go strings are modelled as `List Char`.  Go compares and slices strings by
bytes; on UTF-8 data bytewise lexicographic order coincides with
codepoint-lexicographic order, bytewise prefixes of valid strings are exactly
codepoint prefixes, and the path characters inspected by the code (`'/'`,
`'.'`) are ASCII, so the `List Char` model is faithful.

Several loops of the source are embedded with an explicit fuel argument so
that the functions are structurally recursive (hence kernel-computable); in
every case the fuel passed by the wrapper is proved (or immediately seen) to
be at least the number of iterations the Go loop performs, and lemmas carry
the corresponding `length ≤ fuel` side conditions.
-/

/-! ## Go string comparison (bytewise lexicographic, `<` / `<=` on strings) -/

/-- Go string comparison `a < b` (bytewise lexicographic). -/
def strLt : List Char → List Char → Bool
  | [], [] => false
  | [], _ :: _ => true
  | _ :: _, [] => false
  | a :: as, b :: bs => if a = b then strLt as bs else decide (a < b)

/-- Go string comparison `a <= b`. -/
def strLe (a b : List Char) : Bool := !strLt b a

/-! ## Go `path.Clean`

The Go source (package `path`):

```
func Clean(path string) string {
    if path == "" { return "." }
    rooted := path[0] == '/'
    n := len(path)
    out := lazybuf\x7bs: path\x7d
    r, dotdot := 0, 0
    if rooted { out.append('/'); r, dotdot = 1, 1 }
    for r < n {
        switch {
        case path[r] == '/':
            r++
        case path[r] == '.' && (r+1 == n || path[r+1] == '/'):
            r++
        case path[r] == '.' && path[r+1] == '.' && (r+2 == n || path[r+2] == '/'):
            r += 2
            switch {
            case out.w > dotdot:
                out.w--
                for out.w > dotdot && out.index(out.w) != '/' { out.w-- }
            case !rooted:
                if out.w > 0 { out.append('/') }
                out.append('.'); out.append('.')
                dotdot = out.w
            }
        default:
            if rooted && out.w != 1 || !rooted && out.w != 0 { out.append('/') }
            for ; r < n && path[r] != '/'; r++ { out.append(path[r]) }
        }
    }
    if out.w == 0 { return "." }
    return out.string()
}
```

The `lazybuf` is a byte buffer: `append` writes at position `w`, truncation is
`w--`, and `index i` reads a previously written byte.  We model it as the list
`out` of the `w` committed characters; the backtracking loop of the `..` case
reads exactly the characters it pops, so `popW` below scans the pre-truncation
buffer downwards, and the new buffer is `out.take` of the final `w`. -/

/-- The inner loop of the `..` case of `path.Clean`:
`for out.w > dotdot && out.index(out.w) != '/' { out.w-- }`,
started at `w` (the caller has already decremented once). -/
def popW (b : List Char) (dotdot : Nat) : Nat → Nat
  | 0 => 0
  | w + 1 =>
    if dotdot < w + 1 ∧ b.getD (w + 1) ' ' ≠ '/' then popW b dotdot w else w + 1

/-- The main loop of `path.Clean`, consuming the input character list.
`fuel` bounds the number of iterations; each iteration consumes at least one
input character, so any `fuel ≥ input.length` computes the Go loop exactly. -/
def cleanLoop (rooted : Bool) : Nat → Nat → List Char → List Char → List Char
  | _, _, out, [] => out
  | 0, _, out, _ :: _ => out
  | fuel + 1, dotdot, out, c :: rest =>
    if c = '/' then
      cleanLoop rooted fuel dotdot out rest
    else if c = '.' ∧ (rest = [] ∨ rest.headD ' ' = '/') then
      cleanLoop rooted fuel dotdot out rest
    else if c = '.' ∧ rest.headD ' ' = '.' ∧ (rest.tail = [] ∨ rest.tail.headD ' ' = '/') then
      if dotdot < out.length then
        cleanLoop rooted fuel dotdot (out.take (popW out dotdot (out.length - 1))) rest.tail
      else if rooted = false then
        cleanLoop rooted fuel
          ((if out.length ≠ 0 then out ++ ['/'] else out) ++ ['.', '.']).length
          ((if out.length ≠ 0 then out ++ ['/'] else out) ++ ['.', '.']) rest.tail
      else
        cleanLoop rooted fuel dotdot out rest.tail
    else
      cleanLoop rooted fuel dotdot
        ((if (rooted = true ∧ out.length ≠ 1) ∨ (rooted = false ∧ out.length ≠ 0)
            then out ++ ['/'] else out) ++ (c :: rest).takeWhile (fun d => d ≠ '/'))
        ((c :: rest).dropWhile (fun d => d ≠ '/'))

/-- Go `path.Clean`. -/
def pathClean (p : List Char) : List Char :=
  match p with
  | [] => ['.']
  | c :: rest =>
    let out :=
      if c = '/' then cleanLoop true (c :: rest).length 1 ['/'] rest
      else cleanLoop false (c :: rest).length 0 [] (c :: rest)
    if out = [] then ['.'] else out

-- Cross-checks against the documented behaviour of Go `path.Clean`.
example : pathClean "".data = ".".data := by decide
example : pathClean "/".data = "/".data := by decide
example : pathClean "abc".data = "abc".data := by decide
example : pathClean "abc//def//ghi".data = "abc/def/ghi".data := by decide
example : pathClean "a/b/..".data = "a".data := by decide
example : pathClean "a/..".data = ".".data := by decide
example : pathClean "/..".data = "/".data := by decide
example : pathClean "/../a".data = "/a".data := by decide
example : pathClean "..".data = "..".data := by decide
example : pathClean "../..".data = "../..".data := by decide
example : pathClean "../../x".data = "../../x".data := by decide
example : pathClean "./x".data = "x".data := by decide
example : pathClean "x/.".data = "x".data := by decide
example : pathClean "/a/b/c/./../../g".data = "/a/g".data := by decide
example : pathClean "a/".data = "a".data := by decide
example : pathClean "/a/".data = "/a".data := by decide
example : pathClean "/pkg/sub".data = "/pkg/sub".data := by decide
example : pathClean ".x/..y/".data = ".x/..y".data := by decide

/-! ## The mount table (vfs.go)

State: `vfsPoints` (the sorted list of normalized mount points) and
`vfsMounts` (the map from normalized point to provider).  The Go map is
modelled as a function to `Option`.  `vfsMu` serialises every operation, so
the sequential model below is the whole behaviour. -/

inductive VfsErr
  | invalidMountPoint
  | notMounted
deriving DecidableEq

/-- `normalizeMountPoint` of vfs.go. -/
def normalizeMountPoint (s : List Char) : Except VfsErr (List Char) :=
  let s1 := pathClean s
  if s1 = ['.'] then .error .invalidMountPoint
  else if s1 ≠ ['/'] then .ok (s1 ++ ['/']) else .ok s1

/-- Go `sort.Search` body:
`for i < j { h := (i+j)/2; if !f(h) { i = h+1 } else { j = h } }; return i`.
`fuel` bounds the iteration count; `j - i` shrinks every iteration, so any
`fuel ≥ j - i` computes the Go loop exactly. -/
def goSearchLoop (f : Nat → Bool) : Nat → Nat → Nat → Nat
  | 0, i, _ => i
  | fuel + 1, i, j =>
    if i < j then
      if f ((i + j) / 2) = false then goSearchLoop f fuel ((i + j) / 2 + 1) j
      else goSearchLoop f fuel i ((i + j) / 2)
    else i

/-- Go `sort.Search(n, f)`. -/
def sortSearch (n : Nat) (f : Nat → Bool) : Nat := goSearchLoop f n 0 n

/-- Go `sort.Strings`: sorts in place.  Insertion sort produces the sorted
permutation, which (strings being a linear order) is what any correct sort
yields. -/
def sortStrings (l : List (List Char)) : List (List Char) :=
  List.insertionSort (fun a b => strLe a b = true) l

/-- The package-level mount-table state `(vfsPoints, vfsMounts)`,
for providers of type `α`. -/
structure VFS (α : Type) where
  points : List (List Char)
  mounts : List Char → Option α

def VFS.empty (α : Type) : VFS α := ⟨[], fun _ => none⟩

/-- `lockedUnmountFileSystem` of vfs.go.  On error the state is unchanged
(the Go function returns before mutating anything). -/
def lockedUnmountFileSystem (s : VFS α) (point : List Char) : Except VfsErr (VFS α) :=
  match normalizeMountPoint point with
  | .error e => .error e
  | .ok point =>
    if (s.mounts point).isNone then .error .notMounted
    else
      let i := sortSearch s.points.length (fun k => strLe point (s.points.getD k []))
      .ok ⟨s.points.eraseIdx i, fun q => if q = point then none else s.mounts q⟩

/-- `UnmountFileSystem` of vfs.go (takes the lock, then the locked variant). -/
def UnmountFileSystem (s : VFS α) (point : List Char) : Except VfsErr (VFS α) :=
  lockedUnmountFileSystem s point

/-- `MountFileSystem` of vfs.go.  The `Tcl_FSRegister` call on first use
registers the driver vtable with the interpreter and does not touch the mount
table; it is modelled as succeeding.  The error of the implicit
`lockedUnmountFileSystem` call is discarded, exactly as in the source. -/
def MountFileSystem (s : VFS α) (point : List Char) (fs : α) : Except VfsErr (VFS α) :=
  match normalizeMountPoint point with
  | .error e => .error e
  | .ok point =>
    let s1 := match lockedUnmountFileSystem s point with
      | .ok t => t
      | .error _ => s
    .ok ⟨sortStrings (s1.points ++ [point]), fun q => if q = point then some fs else s1.mounts q⟩

/-- `findVFSprefix` of vfs.go (the resolver).  Returns an index into
`points`, or `-1` for "not part of this virtual file system". -/
def findVFSprefixIdx (points : List (List Char)) (path : List Char) : Int :=
  if points.length = 0 then -1
  else
    let i := sortSearch points.length (fun k => strLe path (points.getD k []))
    if i = points.length then
      if (points.getD (i - 1) []).isPrefixOf path then (i : Int) - 1 else -1
    else
      if (points.getD i []).isPrefixOf path then (i : Int) else -1

/-- The mount point selected for `path`, as used by `vfsFile`
(`vfsPoints[findVFSprefix(path)]`), or `none` when `findVFSprefix` reports
not-found (`vfsPathInFilesystem` then returns -1 and the interpreter falls
through to its native filesystem). -/
def resolvePoint (s : VFS α) (path : List Char) : Option (List Char) :=
  let i := findVFSprefixIdx s.points path
  if i < 0 then none else some (s.points.getD i.toNat [])

/-- The provider a path resolves to: the spec's `resolve`. -/
def resolveFS (s : VFS α) (path : List Char) : Option α :=
  match resolvePoint s path with
  | none => none
  | some p => s.mounts p

/-! ## Provider and file model (http.FileSystem / http.File / os.FileInfo) -/

/-- `os.FileInfo` as the hooks consume it: `Size()`, `ModTime().Unix()`, and
`Mode()` (a Go `os.FileMode`, a `uint32` bit set whose directory flag is bit
31). -/
structure FInfo where
  size : Int
  modTimeUnix : Int
  mode : Nat
deriving DecidableEq

/-- Go `os.ModeDir` (bit 31 of `os.FileMode`). -/
def goModeDir : Nat := 2 ^ 31

/-- `fi.IsDir()`. -/
def FInfo.isDir (fi : FInfo) : Bool := fi.mode &&& goModeDir ≠ 0

/-- An `http.File` as the hooks consume it: only `Stat()` is needed here
(`none` models `Stat` returning an error). -/
structure HFile where
  statr : Option FInfo
deriving DecidableEq

/-- An `http.FileSystem` provider: `Open` by slash-rooted path relative to
the mount point; `none` models `Open` returning an error. -/
def FileSystem := List Char → Option HFile

/-- Outcome of a Go function that can panic.  `panicked` models a Go runtime
panic (or an explicit `panic(...)` call) unwinding out of the hook. -/
inductive GoResult (β : Type) where
  | ok (val : β)
  | panicked
deriving DecidableEq

/-- `vfsFile` of vfs.go.

```
point := vfsPoints[findVFSprefix(path)]
fs := vfsMounts[point]
abs := path[len(point)-1:]
file, err := fs.Open(abs)
if err != nil {
    if !strings.HasSuffix(abs, "/") { file, err = fs.Open(abs + "/") }
}
if err != nil { return nil }
return file
```

When `findVFSprefix` returns -1, the Go code indexes `vfsPoints[-1]` and
panics; when the point is absent from `vfsMounts`, `fs` is a nil interface
and `fs.Open` panics.  Both are `panicked` here.  The byte slice
`path[len(point)-1:]` is the char-level drop because a normalized point ends
in the one-byte char `'/'`. -/
def vfsFile (s : VFS FileSystem) (path : List Char) : GoResult (Option HFile) :=
  let i := findVFSprefixIdx s.points path
  if i < 0 then .panicked
  else
    let point := s.points.getD i.toNat []
    match s.mounts point with
    | none => .panicked
    | some fs =>
      let abs := path.drop (point.length - 1)
      match fs abs with
      | some file => .ok (some file)
      | none =>
        if ¬ (abs.getLast? = some '/') then
          match fs (abs ++ ['/']) with
          | some file => .ok (some file)
          | none => .ok none
        else .ok none

/-- `vfsFileInfo` of vfs.go: `vfsFile` then `file.Stat()`; `nil` on any
failure. -/
def vfsFileInfo (s : VFS FileSystem) (path : List Char) : GoResult (Option FInfo) :=
  match vfsFile s path with
  | .panicked => .panicked
  | .ok none => .ok none
  | .ok (some file) =>
    match file.statr with
    | none => .ok none
    | some fi => .ok (some fi)

/-- The fields of `Tcl_StatBuf` that `vfsStat` fills in. -/
structure TclStatBuf where
  atimSec : Int
  ctimSec : Int
  mtimSec : Int
  mode : Nat
  size : Int
deriving DecidableEq

/-- `vfsStat` of vfs.go: `.ok none` models the `return -1` failure path,
`.ok (some buf)` models filling `*bufPtr` and returning 0.  `Mode_t` is an
unsigned 32-bit type, hence the `% 2 ^ 32` on the `os.FileMode` value. -/
def vfsStat (s : VFS FileSystem) (path : List Char) : GoResult (Option TclStatBuf) :=
  match vfsFileInfo s path with
  | .panicked => .panicked
  | .ok none => .ok none
  | .ok (some fi) =>
    .ok (some ⟨fi.modTimeUnix, fi.modTimeUnix, fi.modTimeUnix, fi.mode % 2 ^ 32, fi.size⟩)

/-- `vfsAccess` of vfs.go.  `mode` is the `access(2)`-style mask the
interpreter passes (a non-negative combination of R_OK=4, W_OK=2, X_OK=1). -/
def vfsAccess (s : VFS FileSystem) (path : List Char) (mode : Nat) : GoResult Int :=
  match vfsFileInfo s path with
  | .panicked => .panicked
  | .ok none => .ok (-1)
  | .ok (some fi) =>
    if fi.isDir then
      if mode &&& 0o222 ≠ 0 then .ok (-1) else .ok 0
    else
      if mode &&& 0o333 ≠ 0 then .ok (-1) else .ok 0

/-- `vfsOpenFileChannel` of vfs.go.  On success the Go code stores the file
in the object registry and calls `Tcl_CreateChannel(&channel, path,
addObject(file), TCL_READABLE)`; the resulting channel is modelled by the
file it is bound to.  When `vfsFile` returns nil the source executes
`panic(todo("%q", path))`. -/
def vfsOpenFileChannel (s : VFS FileSystem) (path : List Char) : GoResult HFile :=
  match vfsFile s path with
  | .panicked => .panicked
  | .ok none => .panicked
  | .ok (some file) => .ok file

/-! ## The channel driver's input hook -/

/-- The error value of a Go `Read`: `io.EOF` or any other non-nil error. -/
inductive IOErr
  | eof
  | other
deriving DecidableEq

/-- The Go `int32(n)` conversion. -/
def int32ofNat (n : Nat) : Int :=
  let m : Nat := n % 2 ^ 32
  if m < 2 ^ 31 then (m : Int) else (m : Int) - 2 ^ 32

/-- `channelInput` of vfs.go.

```
if buf == 0 || toRead == 0 { return 0 }
n, err := getObject(instanceData).(http.File).Read(...)
if n != 0 { return int32(n) }
if err != nil && err != io.EOF { return -1 }
return 0
```

`bufIsNull` is `buf == 0`; `(n, err)` is the outcome of the host stream's
`Read` (`err = none` means a nil error). -/
def channelInput (bufIsNull : Bool) (toRead : Int) (n : Nat) (err : Option IOErr) : Int :=
  if bufIsNull = true ∨ toRead = 0 then 0
  else if n ≠ 0 then int32ofNat n
  else if err ≠ none ∧ err ≠ some .eof then -1
  else 0

/-! ## Concrete sanity checks of the embedding -/

/-- Run `MountFileSystem`, keeping the old state on error (the callers under
test always mount successfully; this wrapper just extracts the state). -/
def mountD (s : VFS α) (point : List Char) (fs : α) : VFS α :=
  match MountFileSystem s point fs with
  | .ok t => t
  | .error _ => s

example : (mountD (mountD (VFS.empty Nat) "/a".data 1) "/b".data 2).points
    = ["/a/".data, "/b/".data] := by decide
example : findVFSprefixIdx ["/a/".data, "/b/".data] "/a/x".data = -1 := by decide
example : findVFSprefixIdx ["/a/".data, "/b/".data] "/b/x".data = 1 := by decide
example : findVFSprefixIdx ["/pkg/".data, "/pkg/sub/".data] "/pkg/sub/file".data = 1 := by decide
example : findVFSprefixIdx ["/pkg/".data, "/pkg/sub/".data] "/pkg/file".data = -1 := by decide
example : normalizeMountPoint "/m".data = .ok "/m/".data := rfl
example : normalizeMountPoint "".data = .error .invalidMountPoint := rfl
example : normalizeMountPoint "/".data = .ok "/".data := rfl

/-! ## Order facts about Go string comparison -/

theorem strLt_irrefl (a : List Char) : strLt a a = false := by
  induction a with
  | nil => rfl
  | cons c cs ih => simp [strLt, ih]

theorem strLt_trans : ∀ {a b c : List Char},
    strLt a b = true → strLt b c = true → strLt a c = true := by
  intro a
  induction a with
  | nil =>
    intro b c hab hbc
    cases b with
    | nil => exact absurd hab (by simp [strLt])
    | cons y ys =>
      cases c with
      | nil => exact absurd hbc (by simp [strLt])
      | cons z zs => simp [strLt]
  | cons x xs ih =>
    intro b c hab hbc
    cases b with
    | nil => exact absurd hab (by simp [strLt])
    | cons y ys =>
      cases c with
      | nil => exact absurd hbc (by simp [strLt])
      | cons z zs =>
        simp only [strLt] at hab hbc ⊢
        by_cases hxy : x = y
        · subst hxy
          simp only [if_pos rfl] at hab
          by_cases hyz : x = z
          · subst hyz
            simp only [if_pos rfl] at hbc ⊢
            exact ih hab hbc
          · simp only [if_neg hyz] at hbc ⊢
            exact hbc
        · simp only [if_neg hxy] at hab
          by_cases hyz : y = z
          · subst hyz
            simp only [if_neg hxy]
            exact hab
          · simp only [if_neg hyz] at hbc
            have hxz : x < z := lt_trans (of_decide_eq_true hab) (of_decide_eq_true hbc)
            have hne : x ≠ z := ne_of_lt hxz
            simp [if_neg hne, hxz]

theorem strLt_total : ∀ (a b : List Char),
    a = b ∨ strLt a b = true ∨ strLt b a = true := by
  intro a
  induction a with
  | nil =>
    intro b
    cases b with
    | nil => exact Or.inl rfl
    | cons y ys => exact Or.inr (Or.inl (by simp [strLt]))
  | cons x xs ih =>
    intro b
    cases b with
    | nil => exact Or.inr (Or.inr (by simp [strLt]))
    | cons y ys =>
      by_cases hxy : x = y
      · subst hxy
        rcases ih ys with h | h | h
        · exact Or.inl (by rw [h])
        · exact Or.inr (Or.inl (by simp [strLt, h]))
        · exact Or.inr (Or.inr (by simp [strLt, h]))
      · rcases lt_or_gt_of_ne hxy with h | h
        · exact Or.inr (Or.inl (by simp [strLt, if_neg hxy, h]))
        · exact Or.inr (Or.inr (by simp [strLt, if_neg (Ne.symm hxy), h]))

theorem strLt_asymm {a b : List Char} (h : strLt a b = true) : strLt b a = false := by
  by_contra hne
  have hba : strLt b a = true := by
    cases hh : strLt b a
    · exact absurd hh hne
    · rfl
  have : strLt a a = true := strLt_trans h hba
  rw [strLt_irrefl] at this
  exact Bool.false_ne_true this

theorem strLe_refl (a : List Char) : strLe a a = true := by
  simp [strLe, strLt_irrefl]

theorem strLe_iff {a b : List Char} : strLe a b = true ↔ strLt b a = false := by
  simp [strLe]

theorem strLe_total (a b : List Char) : strLe a b = true ∨ strLe b a = true := by
  rcases strLt_total a b with h | h | h
  · subst h; exact Or.inl (strLe_refl a)
  · exact Or.inl (strLe_iff.mpr (strLt_asymm h))
  · exact Or.inr (strLe_iff.mpr (strLt_asymm h))

theorem strLe_trans {a b c : List Char}
    (hab : strLe a b = true) (hbc : strLe b c = true) : strLe a c = true := by
  rw [strLe_iff] at hab hbc ⊢
  by_contra hne
  have hca : strLt c a = true := by
    cases hh : strLt c a
    · exact absurd hh hne
    · rfl
  rcases strLt_total a b with h | h | h
  · rw [h] at hca; rw [hca] at hbc; simp at hbc
  · have h2 := strLt_trans hca h
    rw [h2] at hbc; simp at hbc
  · rw [h] at hab; simp at hab

theorem strLe_antisymm {a b : List Char}
    (hab : strLe a b = true) (hba : strLe b a = true) : a = b := by
  rw [strLe_iff] at hab hba
  rcases strLt_total a b with h | h | h
  · exact h
  · rw [h] at hba; exact absurd hba (by simp)
  · rw [h] at hab; exact absurd hab (by simp)

theorem strLt_of_ne_of_le {a b : List Char}
    (hne : a ≠ b) (hab : strLe a b = true) : strLt a b = true := by
  rcases strLt_total a b with h | h | h
  · exact absurd h hne
  · exact h
  · rw [strLe_iff] at hab; rw [h] at hab; exact absurd hab (by simp)

/-- A prefix is `<=` in Go string order. -/
theorem strLe_of_isPrefixOf : ∀ {a b : List Char}, a.isPrefixOf b = true → strLe a b = true := by
  intro a
  induction a with
  | nil =>
    intro b _
    rw [strLe_iff]
    cases b <;> rfl
  | cons x xs ih =>
    intro b h
    cases b with
    | nil => exact absurd h (by simp [List.isPrefixOf])
    | cons y ys =>
      simp only [List.isPrefixOf, Bool.and_eq_true, beq_iff_eq] at h
      obtain ⟨rfl, h2⟩ := h
      have h3 := ih h2
      rw [strLe_iff] at h3 ⊢
      simp [strLt, h3]

/-- A string that is `<=` one of its prefixes equals that prefix. -/
theorem eq_of_isPrefixOf_of_le {a b : List Char}
    (hpre : a.isPrefixOf b = true) (hle : strLe b a = true) : a = b :=
  strLe_antisymm (strLe_of_isPrefixOf hpre) hle

instance strLeRTotal : IsTotal (List Char) (fun a b => strLe a b = true) := ⟨strLe_total⟩

instance strLeRTrans : IsTrans (List Char) (fun a b => strLe a b = true) :=
  ⟨fun _ _ _ => strLe_trans⟩

/-! ## Correctness of Go `sort.Search` on (locally) monotone predicates -/

theorem goSearchLoop_ge (f : Nat → Bool) :
    ∀ (fuel i j : Nat), i ≤ goSearchLoop f fuel i j := by
  intro fuel
  induction fuel with
  | zero => intro i j; exact Nat.le_refl i
  | succ n ih =>
    intro i j
    simp only [goSearchLoop]
    by_cases hij : i < j
    · rw [if_pos hij]
      by_cases hm : f ((i + j) / 2) = false
      · rw [if_pos hm]
        have h1 := ih ((i + j) / 2 + 1) j
        have h2 : i ≤ (i + j) / 2 + 1 := by omega
        omega
      · rw [if_neg hm]
        exact ih i ((i + j) / 2)
    · rw [if_neg hij]

theorem goSearchLoop_le (f : Nat → Bool) :
    ∀ (fuel i j : Nat), i ≤ j → goSearchLoop f fuel i j ≤ j := by
  intro fuel
  induction fuel with
  | zero => intro i j h; exact h
  | succ n ih =>
    intro i j h
    simp only [goSearchLoop]
    by_cases hij : i < j
    · rw [if_pos hij]
      by_cases hm : f ((i + j) / 2) = false
      · rw [if_pos hm]
        exact ih ((i + j) / 2 + 1) j (by omega)
      · rw [if_neg hm]
        have h1 := ih i ((i + j) / 2) (by omega)
        omega
    · rw [if_neg hij]; exact h

theorem goSearchLoop_true (f : Nat → Bool) :
    ∀ (fuel i j : Nat), j - i ≤ fuel → goSearchLoop f fuel i j < j →
      f (goSearchLoop f fuel i j) = true := by
  intro fuel
  induction fuel with
  | zero =>
    intro i j hf hr
    simp only [goSearchLoop] at hr
    omega
  | succ n ih =>
    intro i j hf hr
    simp only [goSearchLoop] at hr ⊢
    by_cases hij : i < j
    · rw [if_pos hij] at hr ⊢
      by_cases hm : f ((i + j) / 2) = false
      · rw [if_pos hm] at hr ⊢
        exact ih ((i + j) / 2 + 1) j (by omega) hr
      · rw [if_neg hm] at hr ⊢
        have hle := goSearchLoop_le f n i ((i + j) / 2) (by omega)
        by_cases heq : goSearchLoop f n i ((i + j) / 2) = (i + j) / 2
        · rw [heq]
          cases hmm : f ((i + j) / 2)
          · exact absurd hmm hm
          · rfl
        · exact ih i ((i + j) / 2) (by omega) (by omega)
    · rw [if_neg hij] at hr; omega

theorem goSearchLoop_false (f : Nat → Bool) :
    ∀ (fuel i j : Nat), j - i ≤ fuel →
      (∀ a b, a ≤ b → b < j → f a = true → f b = true) →
      ∀ k, i ≤ k → k < goSearchLoop f fuel i j → f k = false := by
  intro fuel
  induction fuel with
  | zero =>
    intro i j hf _ k hik hk
    simp only [goSearchLoop] at hk
    omega
  | succ n ih =>
    intro i j hf hmono k hik hk
    simp only [goSearchLoop] at hk
    by_cases hij : i < j
    · rw [if_pos hij] at hk
      by_cases hm : f ((i + j) / 2) = false
      · rw [if_pos hm] at hk
        by_cases hkm : k ≤ (i + j) / 2
        · cases hfk : f k
          · rfl
          · exfalso
            have := hmono k ((i + j) / 2) hkm (by omega) hfk
            rw [this] at hm
            simp at hm
        · exact ih ((i + j) / 2 + 1) j (by omega) hmono k (by omega) hk
      · rw [if_neg hm] at hk
        have hmono2 : ∀ a b, a ≤ b → b < (i + j) / 2 → f a = true → f b = true :=
          fun a b hab hb => hmono a b hab (by omega)
        exact ih i ((i + j) / 2) (by omega) hmono2 k hik hk
    · rw [if_neg hij] at hk; omega

/-- On a `<=`-sorted, duplicate-free point list, `sort.Search` with predicate
`point <= points[i]` returns exactly the index of `point` when `point` is in
the list. -/
theorem sortSearch_eq_index_of_mem (l : List (List Char)) (p : List Char)
    (hsorted : List.Sorted (fun a b => strLe a b = true) l) (hnodup : l.Nodup)
    (k : Nat) (hk : k < l.length) (hget : l.getD k [] = p) :
    sortSearch l.length (fun i => strLe p (l.getD i [])) = k := by
  set f : Nat → Bool := fun i => strLe p (l.getD i []) with hf
  have hrel : ∀ a b, a < b → b < l.length → strLe (l.getD a []) (l.getD b []) = true := by
    intro a b hab hb
    have h2 := List.pairwise_iff_get.mp hsorted ⟨a, by omega⟩ ⟨b, hb⟩ hab
    rw [List.getD_eq_getElem l [] (show a < l.length by omega),
      List.getD_eq_getElem l [] hb]
    simpa using h2
  have hne : ∀ a b, a < b → b < l.length → l.getD a [] ≠ l.getD b [] := by
    intro a b hab hb heq
    have h2 := List.pairwise_iff_get.mp hnodup ⟨a, by omega⟩ ⟨b, hb⟩ hab
    rw [List.getD_eq_getElem l [] (show a < l.length by omega),
      List.getD_eq_getElem l [] hb] at heq
    simp only [List.get_eq_getElem] at h2
    exact h2 heq
  have hmono : ∀ a b, a ≤ b → b < l.length → f a = true → f b = true := by
    intro a b hab hb hfa
    rw [hf] at hfa ⊢
    simp only at hfa ⊢
    rcases Nat.eq_or_lt_of_le hab with rfl | hab2
    · exact hfa
    · exact strLe_trans hfa (hrel a b hab2 hb)
  have hfk : f k = true := by
    rw [hf]
    simp only
    rw [hget]
    exact strLe_refl p
  have hbelow : ∀ i, i < k → f i = false := by
    intro i hi
    rw [hf]
    simp only
    have hle := hrel i k hi hk
    have hneq := hne i k hi hk
    rw [hget] at hle hneq
    have hlt : strLt (l.getD i []) p = true := strLt_of_ne_of_le hneq hle
    have hrw : strLe p (l.getD i []) = !strLt (l.getD i []) p := rfl
    rw [hrw, hlt]
    rfl
  simp only [sortSearch]
  have hge := goSearchLoop_ge f l.length 0 l.length
  have hle2 := goSearchLoop_le f l.length 0 l.length (Nat.zero_le _)
  have h1 : goSearchLoop f l.length 0 l.length ≤ k := by
    by_contra h
    have hfalse := goSearchLoop_false f l.length 0 l.length (by omega) hmono k
      (Nat.zero_le k) (by omega)
    rw [hfk] at hfalse
    simp at hfalse
  have h2 : ¬ goSearchLoop f l.length 0 l.length < k := by
    intro h
    have htrue := goSearchLoop_true f l.length 0 l.length (by omega) (by omega)
    rw [hbelow (goSearchLoop f l.length 0 l.length) h] at htrue
    simp at htrue
  omega

/-! ## The shape of `path.Clean` output

A clean result is `"."`, or `'/'` followed by good segments joined by `'/'`,
or a run of leading `".."` segments followed by good segments joined by `'/'`
(a *good* segment being nonempty, slash-free and neither `"."` nor `".."`).
This shape is an invariant of `cleanLoop`'s buffer and is what makes
`normalizeMountPoint` idempotent on its own output. -/

/-- A path segment that `path.Clean` copies verbatim. -/
def goodSeg (s : List Char) : Prop :=
  s ≠ [] ∧ (∀ c ∈ s, c ≠ '/') ∧ s ≠ ['.'] ∧ s ≠ ['.', '.']

/-- Join segments with `'/'` separators (no leading or trailing slash). -/
def joinSegs : List (List Char) → List Char
  | [] => []
  | [s] => s
  | s :: s2 :: ss => s ++ '/' :: joinSegs (s2 :: ss)

/-- `k` leading `".."` segments. -/
def dotsPre (k : Nat) : List (List Char) := List.replicate k ['.', '.']

/-- The clean buffer contents corresponding to a rooted flag, a count of
leading `".."` segments (always 0 when rooted) and the good segments. -/
def reprOut (rooted : Bool) (lead : Nat) (segs : List (List Char)) : List Char :=
  if rooted then '/' :: joinSegs segs else joinSegs (dotsPre lead ++ segs)

/-- The matching value of `path.Clean`'s `dotdot` barrier. -/
def reprDD (rooted : Bool) (lead : Nat) : Nat :=
  if rooted then 1 else (joinSegs (dotsPre lead)).length

theorem joinSegs_append : ∀ (xs ys : List (List Char)), xs ≠ [] → ys ≠ [] →
    joinSegs (xs ++ ys) = joinSegs xs ++ '/' :: joinSegs ys := by
  intro xs
  induction xs with
  | nil => intro ys h; exact absurd rfl h
  | cons x xs ih =>
    intro ys _ hys
    cases xs with
    | nil =>
      cases ys with
      | nil => exact absurd rfl hys
      | cons y ys2 => rfl
    | cons x2 xs2 =>
      have h2 := ih ys (by simp) hys
      show x ++ '/' :: joinSegs (x2 :: xs2 ++ ys) = (x ++ '/' :: joinSegs (x2 :: xs2)) ++ '/' :: joinSegs ys
      rw [h2]
      simp

theorem joinSegs_ne_nil : ∀ {xs : List (List Char)}, xs ≠ [] → (∀ s ∈ xs, s ≠ []) →
    joinSegs xs ≠ [] := by
  intro xs
  induction xs with
  | nil => intro h; exact absurd rfl h
  | cons x xs _ =>
    intro _ hel
    cases xs with
    | nil =>
      show x ≠ []
      exact hel x (by simp)
    | cons x2 xs2 =>
      show x ++ '/' :: joinSegs (x2 :: xs2) ≠ []
      simp

theorem joinSegs_length_le (xs ys : List (List Char)) :
    (joinSegs xs).length ≤ (joinSegs (xs ++ ys)).length := by
  by_cases hxs : xs = []
  · subst hxs; simp [joinSegs]
  · by_cases hys : ys = []
    · subst hys; simp
    · rw [joinSegs_append xs ys hxs hys]
      simp

/-- `serSegs segs` is each segment followed by one `'/'`. -/
def serSegs : List (List Char) → List Char
  | [] => []
  | s :: ss => s ++ '/' :: serSegs ss

theorem serSegs_append (xs ys : List (List Char)) :
    serSegs (xs ++ ys) = serSegs xs ++ serSegs ys := by
  induction xs with
  | nil => rfl
  | cons x xs ih => simp [serSegs, ih]

theorem joinSegs_append_slash : ∀ {xs : List (List Char)}, xs ≠ [] →
    joinSegs xs ++ ['/'] = serSegs xs := by
  intro xs
  induction xs with
  | nil => intro h; exact absurd rfl h
  | cons x xs ih =>
    intro _
    cases xs with
    | nil => rfl
    | cons x2 xs2 =>
      show (x ++ '/' :: joinSegs (x2 :: xs2)) ++ ['/'] = x ++ '/' :: serSegs (x2 :: xs2)
      rw [← ih (by simp)]
      simp

/-! popW stops at the `'/'` that precedes the last segment (or at the
`dotdot` barrier when the buffer is a single segment past it). -/

theorem popW_stop_slash (pref seg : List Char) (d : Nat)
    (hseg : ∀ c ∈ seg, c ≠ '/') (hd : d ≤ pref.length) :
    ∀ k, k ≤ seg.length → popW (pref ++ '/' :: seg) d (pref.length + k) = pref.length := by
  intro k
  induction k with
  | zero =>
    intro _
    cases hpl : pref.length + 0 with
    | zero => simp only [popW]; omega
    | succ w =>
      simp only [popW]
      rw [if_neg]
      · omega
      · intro hcon
        have hget : (pref ++ '/' :: seg).getD (w + 1) ' ' = '/' := by
          have : w + 1 = pref.length := by omega
          rw [this, List.getD_eq_getElem _ ' ' (by simp)]
          rw [List.getElem_append_right (by omega)]
          simp
        exact hcon.2 hget
  | succ k ih =>
    intro hk
    have hstep : pref.length + (k + 1) = (pref.length + k) + 1 := by omega
    rw [hstep]
    simp only [popW]
    rw [if_pos]
    · exact ih (by omega)
    · constructor
      · omega
      · have hk2 : k < seg.length := by omega
        have hget : (pref ++ '/' :: seg).getD (pref.length + k + 1) ' '
            = seg.get ⟨k, hk2⟩ := by
          rw [List.getD_eq_getElem _ ' ' (by simp; omega)]
          rw [List.getElem_append_right (by omega)]
          have h2 : pref.length + k + 1 - pref.length = k + 1 := by omega
          simp only [h2]
          simp [List.get_eq_getElem]
        rw [hget]
        refine hseg _ ?_
        rw [List.get_eq_getElem]
        exact List.getElem_mem hk2

theorem popW_stop_flat (pref seg : List Char) (d : Nat)
    (hseg : ∀ c ∈ seg, c ≠ '/') (hd : d = pref.length) :
    ∀ k, k < seg.length → popW (pref ++ seg) d (pref.length + k) = pref.length := by
  intro k
  induction k with
  | zero =>
    intro _
    cases hpl : pref.length + 0 with
    | zero => simp only [popW]; omega
    | succ w =>
      simp only [popW]
      rw [if_neg]
      · omega
      · intro hcon
        omega
  | succ k ih =>
    intro hk
    have hstep : pref.length + (k + 1) = (pref.length + k) + 1 := by omega
    rw [hstep]
    simp only [popW]
    rw [if_pos]
    · exact ih (by omega)
    · constructor
      · omega
      · have hk2 : k + 1 < seg.length := by omega
        have hget : (pref ++ seg).getD (pref.length + k + 1) ' '
            = seg.get ⟨k + 1, hk2⟩ := by
          rw [List.getD_eq_getElem _ ' ' (by simp; omega)]
          rw [List.getElem_append_right (by omega)]
          have h2 : pref.length + k + 1 - pref.length = k + 1 := by omega
          simp only [h2]
          simp [List.get_eq_getElem]
        rw [hget]
        refine hseg _ ?_
        rw [List.get_eq_getElem]
        exact List.getElem_mem hk2

theorem dotsPre_elem_ne_nil : ∀ s ∈ dotsPre k, s ≠ [] := by
  intro s hs
  rw [List.eq_of_mem_replicate hs]
  simp

theorem dotsPre_eq_nil_iff {k : Nat} : dotsPre k = [] ↔ k = 0 := by
  simp [dotsPre, List.replicate_eq_nil_iff]

theorem reprOut_true (lead : Nat) (segs : List (List Char)) :
    reprOut true lead segs = '/' :: joinSegs segs := rfl

theorem reprOut_false (lead : Nat) (segs : List (List Char)) :
    reprOut false lead segs = joinSegs (dotsPre lead ++ segs) := rfl

theorem reprDD_true (lead : Nat) : reprDD true lead = 1 := rfl

theorem reprDD_false (lead : Nat) : reprDD false lead = (joinSegs (dotsPre lead)).length := rfl

theorem reprDD_eq_length (lead : Nat) : reprDD false lead = (reprOut false lead []).length := by
  rw [reprDD_false, reprOut_false, List.append_nil]

theorem reprDD_le_length (rooted : Bool) (lead : Nat) (segs : List (List Char)) :
    reprDD rooted lead ≤ (reprOut rooted lead segs).length := by
  cases rooted with
  | true => rw [reprDD_true, reprOut_true]; simp
  | false =>
    rw [reprDD_false, reprOut_false]
    exact joinSegs_length_le (dotsPre lead) segs

theorem reprDD_lt_length_iff (rooted : Bool) (lead : Nat) (segs : List (List Char))
    (hgood : ∀ s ∈ segs, goodSeg s) :
    (reprDD rooted lead < (reprOut rooted lead segs).length ↔ segs ≠ []) := by
  have hne : ∀ s ∈ segs, s ≠ [] := fun s hs => (hgood s hs).1
  cases rooted with
  | true =>
    rw [reprDD_true, reprOut_true]
    constructor
    · intro h hsegs
      subst hsegs
      simp [joinSegs] at h
    · intro h
      have h2 := joinSegs_ne_nil h hne
      have h3 : 0 < (joinSegs segs).length := List.length_pos.mpr h2
      simp only [List.length_cons]
      omega
  | false =>
    rw [reprDD_false, reprOut_false]
    constructor
    · intro h hsegs
      subst hsegs
      simp at h
    · intro h
      by_cases hd : dotsPre lead = []
      · rw [hd]
        simp only [List.nil_append, joinSegs, List.length_nil]
        have h2 := joinSegs_ne_nil h hne
        have h3 : 0 < (joinSegs segs).length := List.length_pos.mpr h2
        simpa [joinSegs] using h3
      · rw [joinSegs_append (dotsPre lead) segs hd h]
        simp

theorem reprOut_snoc (rooted : Bool) (lead : Nat) (segs : List (List Char)) (seg : List Char)
    (hgood : ∀ s ∈ segs, goodSeg s) (hlead : rooted = true → lead = 0) :
    (if (rooted = true ∧ (reprOut rooted lead segs).length ≠ 1)
        ∨ (rooted = false ∧ (reprOut rooted lead segs).length ≠ 0)
      then reprOut rooted lead segs ++ ['/'] else reprOut rooted lead segs) ++ seg
    = reprOut rooted lead (segs ++ [seg]) := by
  have hne : ∀ s ∈ segs, s ≠ [] := fun s hs => (hgood s hs).1
  cases rooted with
  | true =>
    rw [reprOut_true, reprOut_true]
    by_cases hsegs : segs = []
    · subst hsegs
      rw [if_neg]
      · simp [joinSegs]
      · simp [joinSegs]
    · have hJ := joinSegs_ne_nil hsegs hne
      have hlen : 0 < (joinSegs segs).length := List.length_pos.mpr hJ
      rw [if_pos]
      · rw [joinSegs_append segs [seg] hsegs (by simp)]
        simp [joinSegs]
      · exact Or.inl ⟨rfl, by simp only [List.length_cons]; omega⟩
  | false =>
    rw [reprOut_false, reprOut_false]
    by_cases hxs : dotsPre lead ++ segs = []
    · obtain ⟨h1, h2⟩ := List.append_eq_nil.mp hxs
      subst h2
      rw [h1]
      rw [if_neg]
      · simp [joinSegs]
      · simp [joinSegs]
    · have helems : ∀ s ∈ dotsPre lead ++ segs, s ≠ [] := by
        intro s hs
        rcases List.mem_append.mp hs with h | h
        · exact dotsPre_elem_ne_nil s h
        · exact hne s h
      have hJ := joinSegs_ne_nil hxs helems
      have hlen : 0 < (joinSegs (dotsPre lead ++ segs)).length := List.length_pos.mpr hJ
      rw [if_pos]
      · rw [← List.append_assoc (dotsPre lead) segs [seg]]
        rw [joinSegs_append (dotsPre lead ++ segs) [seg] hxs (by simp)]
        simp [joinSegs]
      · exact Or.inr ⟨rfl, by omega⟩

theorem reprOut_dots_step (lead : Nat) :
    (if (reprOut false lead []).length ≠ 0 then reprOut false lead [] ++ ['/']
      else reprOut false lead []) ++ ['.', '.'] = reprOut false (lead + 1) [] := by
  rw [reprOut_false, reprOut_false, List.append_nil, List.append_nil]
  by_cases hd : dotsPre lead = []
  · rw [hd]
    rw [if_neg]
    · have h1 : dotsPre (lead + 1) = [['.', '.']] := by
        rw [dotsPre_eq_nil_iff.mp hd]
        rfl
      rw [h1]
      rfl
    · simp [joinSegs]
  · have hJ := joinSegs_ne_nil hd (dotsPre_elem_ne_nil)
    have hlen : 0 < (joinSegs (dotsPre lead)).length := List.length_pos.mpr hJ
    rw [if_pos (by omega)]
    have hrep : dotsPre (lead + 1) = dotsPre lead ++ [['.', '.']] := by
      simp [dotsPre, List.replicate_succ']
    rw [hrep, joinSegs_append (dotsPre lead) [['.', '.']] hd (by simp)]
    simp [joinSegs]

theorem reprOut_pop (rooted : Bool) (lead : Nat) (init : List (List Char)) (last : List Char)
    (hgood : ∀ s ∈ init, goodSeg s) (hlast : goodSeg last) (hlead : rooted = true → lead = 0) :
    (reprOut rooted lead (init ++ [last])).take
        (popW (reprOut rooted lead (init ++ [last])) (reprDD rooted lead)
          ((reprOut rooted lead (init ++ [last])).length - 1))
      = reprOut rooted lead init := by
  obtain ⟨hlne, hlslash, _, _⟩ := hlast
  have hlpos : 0 < last.length := List.length_pos.mpr hlne
  cases rooted with
  | true =>
    rw [reprOut_true, reprOut_true, reprDD_true]
    by_cases hinit : init = []
    · subst hinit
      simp only [List.nil_append]
      have hb : ('/' : Char) :: joinSegs [last] = ['/'] ++ last := by simp [joinSegs]
      rw [hb]
      have hlen : (['/'] ++ last).length - 1 = (['/'] : List Char).length + (last.length - 1) := by
        simp only [List.length_append, List.length_singleton]
        omega
      rw [hlen]
      rw [popW_stop_flat ['/'] last 1 hlslash (by simp) (last.length - 1) (by omega)]
      rw [List.take_left (['/'] : List Char) last]
      simp [joinSegs]
    · rw [joinSegs_append init [last] hinit (by simp)]
      have hb : ('/' : Char) :: (joinSegs init ++ '/' :: joinSegs [last])
          = ('/' :: joinSegs init) ++ '/' :: last := by simp [joinSegs]
      rw [hb]
      have hlen : (('/' :: joinSegs init) ++ '/' :: last).length - 1
          = ('/' :: joinSegs init).length + last.length := by
        simp only [List.length_append, List.length_cons]
        omega
      rw [hlen]
      rw [popW_stop_slash ('/' :: joinSegs init) last 1 hlslash (by simp) last.length (le_refl _)]
      exact List.take_left ('/' :: joinSegs init) ('/' :: last)
  | false =>
    rw [reprOut_false, reprOut_false, reprDD_false]
    rw [← List.append_assoc (dotsPre lead) init [last]]
    by_cases hxs : dotsPre lead ++ init = []
    · obtain ⟨hd0, hi0⟩ := List.append_eq_nil.mp hxs
      rw [hxs]
      subst hi0
      rw [hd0]
      simp only [List.nil_append]
      have hb : joinSegs [last] = ([] : List Char) ++ last := by simp [joinSegs]
      rw [hb]
      have hdd : (joinSegs ([] : List (List Char))).length = ([] : List Char).length := by
        simp [joinSegs]
      rw [hdd]
      have hlen : (([] : List Char) ++ last).length - 1
          = ([] : List Char).length + (last.length - 1) := by
        simp only [List.nil_append, List.length_nil]
        omega
      rw [hlen]
      rw [popW_stop_flat [] last ([] : List Char).length hlslash rfl (last.length - 1) (by omega)]
      simp [joinSegs]
    · rw [joinSegs_append (dotsPre lead ++ init) [last] hxs (by simp)]
      have hb : joinSegs [last] = last := by simp [joinSegs]
      rw [hb]
      have hdle : (joinSegs (dotsPre lead)).length ≤ (joinSegs (dotsPre lead ++ init)).length :=
        joinSegs_length_le (dotsPre lead) init
      have hlen : (joinSegs (dotsPre lead ++ init) ++ '/' :: last).length - 1
          = (joinSegs (dotsPre lead ++ init)).length + last.length := by
        simp only [List.length_append, List.length_cons]
        omega
      rw [hlen]
      rw [popW_stop_slash (joinSegs (dotsPre lead ++ init)) last
        (joinSegs (dotsPre lead)).length hlslash hdle last.length (le_refl _)]
      exact List.take_left (joinSegs (dotsPre lead ++ init)) ('/' :: last)

theorem cleanLoop_nil (rooted : Bool) (fuel dotdot : Nat) (out : List Char) :
    cleanLoop rooted fuel dotdot out [] = out := by
  cases fuel <;> rfl

theorem cleanLoop_cons (rooted : Bool) (fuel dotdot : Nat) (out : List Char) (c : Char)
    (rest : List Char) :
    cleanLoop rooted (fuel + 1) dotdot out (c :: rest) =
      if c = '/' then cleanLoop rooted fuel dotdot out rest
      else if c = '.' ∧ (rest = [] ∨ rest.headD ' ' = '/') then
        cleanLoop rooted fuel dotdot out rest
      else if c = '.' ∧ rest.headD ' ' = '.' ∧ (rest.tail = [] ∨ rest.tail.headD ' ' = '/') then
        if dotdot < out.length then
          cleanLoop rooted fuel dotdot (out.take (popW out dotdot (out.length - 1))) rest.tail
        else if rooted = false then
          cleanLoop rooted fuel
            ((if out.length ≠ 0 then out ++ ['/'] else out) ++ ['.', '.']).length
            ((if out.length ≠ 0 then out ++ ['/'] else out) ++ ['.', '.']) rest.tail
        else cleanLoop rooted fuel dotdot out rest.tail
      else
        cleanLoop rooted fuel dotdot
          ((if (rooted = true ∧ out.length ≠ 1) ∨ (rooted = false ∧ out.length ≠ 0)
              then out ++ ['/'] else out) ++ (c :: rest).takeWhile (fun d => d ≠ '/'))
          ((c :: rest).dropWhile (fun d => d ≠ '/')) := rfl

/-- Every reachable `cleanLoop` state keeps the buffer in clean shape, so the
final buffer is in clean shape. -/
theorem cleanLoop_repr (rooted : Bool) :
    ∀ (fuel : Nat) (input : List Char), input.length ≤ fuel →
    ∀ (lead : Nat) (segs : List (List Char)),
      (∀ s ∈ segs, goodSeg s) → (rooted = true → lead = 0) →
      ∃ lead2 segs2, (∀ s ∈ segs2, goodSeg s) ∧ (rooted = true → lead2 = 0) ∧
        cleanLoop rooted fuel (reprDD rooted lead) (reprOut rooted lead segs) input
          = reprOut rooted lead2 segs2 := by
  intro fuel
  induction fuel with
  | zero =>
    intro input hlen lead segs hgood hlead
    have hnil : input = [] := List.eq_nil_of_length_eq_zero (by omega)
    subst hnil
    exact ⟨lead, segs, hgood, hlead, cleanLoop_nil rooted 0 _ _⟩
  | succ fuel ih =>
    intro input hlen lead segs hgood hlead
    cases input with
    | nil => exact ⟨lead, segs, hgood, hlead, cleanLoop_nil rooted _ _ _⟩
    | cons c rest =>
      have hrest : rest.length ≤ fuel := by
        simp only [List.length_cons] at hlen
        omega
      have htl : rest.tail.length ≤ fuel := by
        have := List.length_tail rest
        omega
      rw [cleanLoop_cons]
      by_cases h1 : c = '/'
      · rw [if_pos h1]
        exact ih rest hrest lead segs hgood hlead
      · rw [if_neg h1]
        by_cases h2 : c = '.' ∧ (rest = [] ∨ rest.headD ' ' = '/')
        · rw [if_pos h2]
          exact ih rest hrest lead segs hgood hlead
        · rw [if_neg h2]
          by_cases h3 : c = '.' ∧ rest.headD ' ' = '.' ∧ (rest.tail = [] ∨ rest.tail.headD ' ' = '/')
          · rw [if_pos h3]
            by_cases h4 : reprDD rooted lead < (reprOut rooted lead segs).length
            · rw [if_pos h4]
              have hsegs_ne : segs ≠ [] := (reprDD_lt_length_iff rooted lead segs hgood).mp h4
              rcases List.eq_nil_or_concat segs with hnil | ⟨init, last, hconcat⟩
              · exact absurd hnil hsegs_ne
              · rw [List.concat_eq_append] at hconcat
                subst hconcat
                have hgoodi : ∀ s ∈ init, goodSeg s := fun s hs => hgood s (by simp [hs])
                have hlast : goodSeg last := hgood last (by simp)
                rw [reprOut_pop rooted lead init last hgoodi hlast hlead]
                exact ih rest.tail htl lead init hgoodi hlead
            · rw [if_neg h4]
              have hsegs : segs = [] := by
                by_contra hc
                exact h4 ((reprDD_lt_length_iff rooted lead segs hgood).mpr hc)
              subst hsegs
              cases rooted with
              | false =>
                rw [if_pos rfl]
                rw [reprOut_dots_step lead]
                rw [← reprDD_eq_length (lead + 1)]
                exact ih rest.tail htl (lead + 1) [] (by simp) (by simp)
              | true =>
                rw [if_neg (by simp)]
                exact ih rest.tail htl lead [] hgood hlead
          · rw [if_neg h3]
            have hsegtake : (c :: rest).takeWhile (fun d => d ≠ '/')
                = c :: rest.takeWhile (fun d => d ≠ '/') := by
              rw [List.takeWhile_cons]
              rw [if_pos (by simp [h1])]
            have hdroptake : (c :: rest).dropWhile (fun d => d ≠ '/')
                = rest.dropWhile (fun d => d ≠ '/') := by
              rw [List.dropWhile_cons]
              rw [if_pos (by simp [h1])]
            have hgoodseg : goodSeg ((c :: rest).takeWhile (fun d => d ≠ '/')) := by
              refine ⟨by rw [hsegtake]; simp, ?_, ?_, ?_⟩
              · intro x hx
                have := List.mem_takeWhile_imp hx
                simpa using this
              · intro hdot
                rw [hsegtake] at hdot
                have hc : c = '.' := by
                  have := List.head_eq_of_cons_eq hdot
                  exact this
                have htw : rest.takeWhile (fun d => d ≠ '/') = [] :=
                  List.tail_eq_of_cons_eq hdot
                apply h2
                refine ⟨hc, ?_⟩
                cases rest with
                | nil => exact Or.inl rfl
                | cons r rs =>
                  rw [List.takeWhile_cons] at htw
                  by_cases hr : r = '/'
                  · exact Or.inr (by simp [hr])
                  · rw [if_pos (by simp [hr])] at htw
                    exact absurd htw (by simp)
              · intro hdd
                rw [hsegtake] at hdd
                have hc : c = '.' := List.head_eq_of_cons_eq hdd
                have htw : rest.takeWhile (fun d => d ≠ '/') = ['.'] :=
                  List.tail_eq_of_cons_eq hdd
                apply h3
                cases rest with
                | nil => simp at htw
                | cons r rs =>
                  rw [List.takeWhile_cons] at htw
                  by_cases hr : r = '/'
                  · rw [if_neg (by simp [hr])] at htw
                    exact absurd htw (by simp)
                  · rw [if_pos (by simp [hr])] at htw
                    have hr2 : r = '.' := List.head_eq_of_cons_eq htw
                    have htw2 : rs.takeWhile (fun d => d ≠ '/') = [] :=
                      List.tail_eq_of_cons_eq htw
                    refine ⟨hc, by simp [hr2], ?_⟩
                    cases rs with
                    | nil => exact Or.inl rfl
                    | cons t ts =>
                      rw [List.takeWhile_cons] at htw2
                      by_cases ht : t = '/'
                      · exact Or.inr (by simp [ht])
                      · rw [if_pos (by simp [ht])] at htw2
                        exact absurd htw2 (by simp)
            rw [reprOut_snoc rooted lead segs ((c :: rest).takeWhile (fun d => d ≠ '/'))
              hgood hlead]
            have hdlen : ((c :: rest).dropWhile (fun d => d ≠ '/')).length ≤ fuel := by
              rw [hdroptake]
              have := (@List.dropWhile_sublist Char rest (fun d => d ≠ '/')).length_le
              omega
            have hgood2 : ∀ s ∈ segs ++ [(c :: rest).takeWhile (fun d => d ≠ '/')], goodSeg s := by
              intro s hs
              rcases List.mem_append.mp hs with h | h
              · exact hgood s h
              · rw [List.mem_singleton.mp h]
                exact hgoodseg
            exact ih ((c :: rest).dropWhile (fun d => d ≠ '/')) hdlen lead
              (segs ++ [(c :: rest).takeWhile (fun d => d ≠ '/')]) hgood2 hlead

/-- `cleanLoop` does not depend on the fuel once the fuel covers the input. -/
theorem cleanLoop_fuel_irrel (rooted : Bool) :
    ∀ (f1 f2 : Nat) (input : List Char) (dotdot : Nat) (out : List Char),
      input.length ≤ f1 → input.length ≤ f2 →
      cleanLoop rooted f1 dotdot out input = cleanLoop rooted f2 dotdot out input := by
  intro f1
  induction f1 with
  | zero =>
    intro f2 input dotdot out h1 h2
    have hnil : input = [] := List.eq_nil_of_length_eq_zero (by omega)
    subst hnil
    rw [cleanLoop_nil, cleanLoop_nil]
  | succ f1 ih =>
    intro f2 input dotdot out h1 h2
    cases input with
    | nil => rw [cleanLoop_nil, cleanLoop_nil]
    | cons c rest =>
      cases f2 with
      | zero => simp at h2
      | succ f2 =>
        have hrest1 : rest.length ≤ f1 := by simp at h1; omega
        have hrest2 : rest.length ≤ f2 := by simp at h2; omega
        have htl1 : rest.tail.length ≤ f1 := by have := List.length_tail rest; omega
        have htl2 : rest.tail.length ≤ f2 := by have := List.length_tail rest; omega
        rw [cleanLoop_cons, cleanLoop_cons]
        by_cases hc1 : c = '/'
        · rw [if_pos hc1, if_pos hc1]
          exact ih f2 rest dotdot out hrest1 hrest2
        · rw [if_neg hc1, if_neg hc1]
          by_cases hc2 : c = '.' ∧ (rest = [] ∨ rest.headD ' ' = '/')
          · rw [if_pos hc2, if_pos hc2]
            exact ih f2 rest dotdot out hrest1 hrest2
          · rw [if_neg hc2, if_neg hc2]
            by_cases hc3 : c = '.' ∧ rest.headD ' ' = '.' ∧ (rest.tail = [] ∨ rest.tail.headD ' ' = '/')
            · rw [if_pos hc3, if_pos hc3]
              by_cases hc4 : dotdot < out.length
              · rw [if_pos hc4, if_pos hc4]
                exact ih f2 rest.tail dotdot _ htl1 htl2
              · rw [if_neg hc4, if_neg hc4]
                by_cases hc5 : rooted = false
                · rw [if_pos hc5, if_pos hc5]
                  exact ih f2 rest.tail _ _ htl1 htl2
                · rw [if_neg hc5, if_neg hc5]
                  exact ih f2 rest.tail dotdot out htl1 htl2
            · rw [if_neg hc3, if_neg hc3]
              have hd : ((c :: rest).dropWhile (fun d => d ≠ '/')).length ≤ rest.length := by
                rw [List.dropWhile_cons, if_pos (by simp [hc1])]
                exact (@List.dropWhile_sublist Char rest (fun d => d ≠ '/')).length_le
              exact ih f2 ((c :: rest).dropWhile (fun d => d ≠ '/')) dotdot _
                (by omega) (by omega)

theorem takeWhile_seg (seg rest : List Char) (h : ∀ x ∈ seg, x ≠ '/') :
    (seg ++ '/' :: rest).takeWhile (fun d => d ≠ '/') = seg := by
  induction seg with
  | nil =>
    rw [List.nil_append, List.takeWhile_cons]
    rw [if_neg (by simp)]
  | cons c cs ih =>
    rw [List.cons_append, List.takeWhile_cons]
    rw [if_pos (by simp [h c (by simp)])]
    rw [ih (fun x hx => h x (by simp [hx]))]

theorem dropWhile_seg (seg rest : List Char) (h : ∀ x ∈ seg, x ≠ '/') :
    (seg ++ '/' :: rest).dropWhile (fun d => d ≠ '/') = '/' :: rest := by
  induction seg with
  | nil =>
    rw [List.nil_append, List.dropWhile_cons]
    rw [if_neg (by simp)]
  | cons c cs ih =>
    rw [List.cons_append, List.dropWhile_cons]
    rw [if_pos (by simp [h c (by simp)])]
    exact ih (fun x hx => h x (by simp [hx]))

/-- Consuming `k` serialized `".."` segments from a state with no ordinary
segments raises the `".."` lead count by `k`. -/
theorem cleanLoop_consume_dots :
    ∀ (k fuel lead : Nat) (rest : List Char),
      (serSegs (dotsPre k) ++ rest).length ≤ fuel →
      cleanLoop false fuel (reprDD false lead) (reprOut false lead []) (serSegs (dotsPre k) ++ rest)
        = cleanLoop false rest.length (reprDD false (lead + k)) (reprOut false (lead + k) []) rest := by
  intro k
  induction k with
  | zero =>
    intro fuel lead rest hlen
    have hser : serSegs (dotsPre 0) = [] := rfl
    rw [hser] at hlen ⊢
    rw [List.nil_append] at hlen ⊢
    rw [Nat.add_zero]
    exact cleanLoop_fuel_irrel false fuel rest.length rest _ _ hlen (le_refl _)
  | succ k ih =>
    intro fuel lead rest hlen
    have hser : serSegs (dotsPre (k + 1)) ++ rest
        = '.' :: '.' :: '/' :: (serSegs (dotsPre k) ++ rest) := by
      show serSegs (dotsPre (k + 1)) ++ rest = ['.', '.'] ++ '/' :: (serSegs (dotsPre k) ++ rest)
      have : dotsPre (k + 1) = ['.', '.'] :: dotsPre k := by
        simp [dotsPre, List.replicate_succ]
      rw [this]
      show (['.', '.'] ++ '/' :: serSegs (dotsPre k)) ++ rest = _
      simp
    rw [hser] at hlen ⊢
    cases fuel with
    | zero => simp at hlen
    | succ f =>
      cases f with
      | zero => simp at hlen
      | succ f2 =>
        rw [cleanLoop_cons]
        rw [if_neg (by simp)]
        rw [if_neg (by simp)]
        rw [if_pos (by simp)]
        rw [if_neg (by rw [← reprDD_eq_length lead]; omega)]
        rw [if_pos rfl]
        simp only [List.tail_cons]
        rw [reprOut_dots_step lead]
        rw [← reprDD_eq_length (lead + 1)]
        rw [cleanLoop_cons]
        rw [if_pos rfl]
        have hlen2 : (serSegs (dotsPre k) ++ rest).length ≤ f2 := by
          simp only [List.length_cons] at hlen
          omega
        rw [ih f2 (lead + 1) rest hlen2]
        have harith : lead + 1 + k = lead + (k + 1) := by omega
        rw [harith]

/-- Consuming serialized good segments appends them to the buffer. -/
theorem cleanLoop_consume_segs (rooted : Bool) :
    ∀ (segs2 : List (List Char)), (∀ s ∈ segs2, goodSeg s) →
    ∀ (fuel lead : Nat) (segs : List (List Char)),
      (∀ s ∈ segs, goodSeg s) → (rooted = true → lead = 0) →
      (serSegs segs2).length ≤ fuel →
      cleanLoop rooted fuel (reprDD rooted lead) (reprOut rooted lead segs) (serSegs segs2)
        = reprOut rooted lead (segs ++ segs2) := by
  intro segs2
  induction segs2 with
  | nil =>
    intro _ fuel lead segs _ _ _
    have hser : serSegs ([] : List (List Char)) = [] := rfl
    rw [hser, cleanLoop_nil, List.append_nil]
  | cons seg rest2 ih =>
    intro hgood2 fuel lead segs hgood hlead hlen
    have hgseg : goodSeg seg := hgood2 seg (by simp)
    obtain ⟨hsne, hsslash, hsdot, hsdd⟩ := hgseg
    obtain ⟨c, ctail, hc⟩ := List.exists_cons_of_ne_nil hsne
    have hser : serSegs (seg :: rest2) = c :: (ctail ++ '/' :: serSegs rest2) := by
      show seg ++ '/' :: serSegs rest2 = c :: (ctail ++ '/' :: serSegs rest2)
      rw [hc]
      rfl
    have hcin : c ∈ seg := by rw [hc]; simp
    have hcslash : c ≠ '/' := hsslash c hcin
    rw [hser] at hlen ⊢
    cases fuel with
    | zero => simp at hlen
    | succ f =>
      rw [cleanLoop_cons]
      rw [if_neg hcslash]
      rw [if_neg]
      · rw [if_neg]
        · have htake : (c :: (ctail ++ '/' :: serSegs rest2)).takeWhile (fun d => d ≠ '/') = seg := by
            have h2 : c :: (ctail ++ '/' :: serSegs rest2) = seg ++ '/' :: serSegs rest2 := by
              rw [hc]; rfl
            rw [h2]
            exact takeWhile_seg seg (serSegs rest2) hsslash
          have hdrop : (c :: (ctail ++ '/' :: serSegs rest2)).dropWhile (fun d => d ≠ '/')
              = '/' :: serSegs rest2 := by
            have h2 : c :: (ctail ++ '/' :: serSegs rest2) = seg ++ '/' :: serSegs rest2 := by
              rw [hc]; rfl
            rw [h2]
            exact dropWhile_seg seg (serSegs rest2) hsslash
          rw [htake, hdrop]
          rw [reprOut_snoc rooted lead segs seg hgood hlead]
          cases f with
          | zero =>
            exfalso
            have : 1 ≤ (serSegs rest2).length + 1 := by omega
            simp only [List.length_cons, List.length_append] at hlen
            omega
          | succ f2 =>
            rw [cleanLoop_cons]
            rw [if_pos rfl]
            have hgood3 : ∀ s ∈ segs ++ [seg], goodSeg s := by
              intro s hs
              rcases List.mem_append.mp hs with h | h
              · exact hgood s h
              · rw [List.mem_singleton.mp h]
                exact ⟨hsne, hsslash, hsdot, hsdd⟩
            have hlen3 : (serSegs rest2).length ≤ f2 := by
              simp only [List.length_cons, List.length_append] at hlen
              have : seg.length = ctail.length + 1 := by rw [hc]; simp
              omega
            rw [ih (fun s hs => hgood2 s (by simp [hs])) f2 lead (segs ++ [seg]) hgood3 hlead hlen3]
            rw [List.append_assoc]
            rfl
        · intro hcon
          obtain ⟨hcdot, hh, hor⟩ := hcon
          cases hct : ctail with
          | nil =>
            rw [hct] at hc
            rw [hcdot] at hc
            exact hsdot hc
          | cons d dtail =>
            rw [hct] at hh
            have hd : d = '.' := by simpa using hh
            rcases hor with h | h
            · rw [hct] at h
              simp at h
            · rw [hct] at h
              simp only [List.cons_append, List.tail_cons] at h
              cases hdt : dtail with
              | nil =>
                rw [hdt] at hct
                rw [hct, hcdot, hd] at hc
                exact hsdd hc
              | cons e etail =>
                rw [hdt] at h
                simp only [List.cons_append, List.headD_cons] at h
                have he : e ∈ seg := by
                  rw [hc, hct, hdt]
                  simp
                exact hsslash e he h
      · intro hcon
        obtain ⟨hcdot, hor⟩ := hcon
        rcases hor with h | h
        · simp at h
        · cases hct : ctail with
          | nil =>
            rw [hct] at hc
            rw [hcdot] at hc
            exact hsdot hc
          | cons d dtail =>
            rw [hct] at h
            simp only [List.cons_append, List.headD_cons] at h
            have hd : d ∈ seg := by
              rw [hc, hct]
              simp
            exact hsslash d hd h

/-- Every `path.Clean` result is `"."` or a nonempty clean-shaped string. -/
theorem pathClean_repr (p : List Char) :
    pathClean p = ['.'] ∨
      ∃ rooted lead segs, (∀ s ∈ segs, goodSeg s) ∧ (rooted = true → lead = 0) ∧
        pathClean p = reprOut rooted lead segs ∧ reprOut rooted lead segs ≠ [] := by
  cases hp : p with
  | nil => exact Or.inl rfl
  | cons c rest =>
    by_cases hc : c = '/'
    · obtain ⟨l2, s2, hg2, hl2, heq⟩ :=
        cleanLoop_repr true (c :: rest).length rest (by simp) 0 [] (by simp) (fun _ => rfl)
      have heq2 : cleanLoop true (c :: rest).length 1 ['/'] rest = reprOut true l2 s2 := heq
      have hpc : pathClean (c :: rest)
          = if reprOut true l2 s2 = [] then ['.'] else reprOut true l2 s2 := by
        show (if (if c = '/' then cleanLoop true (c :: rest).length 1 ['/'] rest
            else cleanLoop false (c :: rest).length 0 [] (c :: rest)) = [] then ['.']
          else (if c = '/' then cleanLoop true (c :: rest).length 1 ['/'] rest
            else cleanLoop false (c :: rest).length 0 [] (c :: rest))) = _
        rw [if_pos hc, heq2]
      by_cases hnil : reprOut true l2 s2 = []
      · rw [hnil] at hpc
        simp only [if_pos rfl] at hpc
        exact Or.inl hpc
      · rw [if_neg hnil] at hpc
        exact Or.inr ⟨true, l2, s2, hg2, hl2, hpc, hnil⟩
    · obtain ⟨l2, s2, hg2, hl2, heq⟩ :=
        cleanLoop_repr false (c :: rest).length (c :: rest) (le_refl _) 0 [] (by simp)
          (by intro h; cases h)
      have heq2 : cleanLoop false (c :: rest).length 0 [] (c :: rest) = reprOut false l2 s2 := heq
      have hpc : pathClean (c :: rest)
          = if reprOut false l2 s2 = [] then ['.'] else reprOut false l2 s2 := by
        show (if (if c = '/' then cleanLoop true (c :: rest).length 1 ['/'] rest
            else cleanLoop false (c :: rest).length 0 [] (c :: rest)) = [] then ['.']
          else (if c = '/' then cleanLoop true (c :: rest).length 1 ['/'] rest
            else cleanLoop false (c :: rest).length 0 [] (c :: rest))) = _
        rw [if_neg hc, heq2]
      by_cases hnil : reprOut false l2 s2 = []
      · rw [hnil] at hpc
        simp only [if_pos rfl] at hpc
        exact Or.inl hpc
      · rw [if_neg hnil] at hpc
        exact Or.inr ⟨false, l2, s2, hg2, hl2, hpc, hnil⟩

/-- A nonempty clean-shaped string with a `'/'` appended cleans back to
itself. -/
theorem pathClean_fix (rooted : Bool) (lead : Nat) (segs : List (List Char))
    (hgood : ∀ s ∈ segs, goodSeg s) (hlead : rooted = true → lead = 0)
    (hne : reprOut rooted lead segs ≠ []) :
    pathClean (reprOut rooted lead segs ++ ['/']) = reprOut rooted lead segs := by
  cases rooted with
  | true =>
    rw [reprOut_true] at hne ⊢
    by_cases hsegs : segs = []
    · subst hsegs
      decide
    · have hJne : joinSegs segs ≠ [] :=
        joinSegs_ne_nil hsegs (fun s hs => (hgood s hs).1)
      have hp : ('/' :: joinSegs segs) ++ ['/'] = '/' :: serSegs segs := by
        rw [← joinSegs_append_slash hsegs]
        rfl
      rw [hp]
      have hlen : (serSegs segs).length ≤ ('/' :: serSegs segs).length := by simp
      have heq := cleanLoop_consume_segs true segs hgood ('/' :: serSegs segs).length lead []
        (by simp) hlead hlen
      have heq2 : cleanLoop true ('/' :: serSegs segs).length 1 ['/'] (serSegs segs)
          = reprOut true lead ([] ++ segs) := heq
      rw [List.nil_append] at heq2
      show (if (if ('/' : Char) = '/' then
            cleanLoop true ('/' :: serSegs segs).length 1 ['/'] (serSegs segs)
          else cleanLoop false ('/' :: serSegs segs).length 0 [] ('/' :: serSegs segs)) = []
        then ['.']
        else (if ('/' : Char) = '/' then
            cleanLoop true ('/' :: serSegs segs).length 1 ['/'] (serSegs segs)
          else cleanLoop false ('/' :: serSegs segs).length 0 [] ('/' :: serSegs segs)))
        = '/' :: joinSegs segs
      rw [if_pos rfl, heq2, reprOut_true]
      rw [if_neg (by simp)]
  | false =>
    rw [reprOut_false] at hne ⊢
    have hxs : dotsPre lead ++ segs ≠ [] := by
      intro hcon
      rw [hcon] at hne
      exact hne rfl
    have helems : ∀ s ∈ dotsPre lead ++ segs, s ≠ [] := by
      intro s hs
      rcases List.mem_append.mp hs with h | h
      · exact dotsPre_elem_ne_nil s h
      · exact (hgood s h).1
    have hp : joinSegs (dotsPre lead ++ segs) ++ ['/']
        = serSegs (dotsPre lead) ++ serSegs segs := by
      rw [joinSegs_append_slash hxs, serSegs_append]
    obtain ⟨x, xs, hxxs⟩ := List.exists_cons_of_ne_nil hxs
    have hxne : x ≠ [] := helems x (by rw [hxxs]; simp)
    obtain ⟨cx, xtail, hx⟩ := List.exists_cons_of_ne_nil hxne
    have hcx : cx ≠ '/' := by
      have hxmem : x ∈ dotsPre lead ++ segs := by rw [hxxs]; simp
      rcases List.mem_append.mp hxmem with h | h
      · have := List.eq_of_mem_replicate h
        rw [this] at hx
        have : cx = '.' := List.head_eq_of_cons_eq hx.symm
        rw [this]
        simp
      · exact (hgood x h).2.1 cx (by rw [hx]; simp)
    have hshape : serSegs (dotsPre lead) ++ serSegs segs
        = cx :: (xtail ++ '/' :: serSegs xs) := by
      rw [← serSegs_append, hxxs]
      show x ++ '/' :: serSegs xs = cx :: (xtail ++ '/' :: serSegs xs)
      rw [hx]
      rfl
    rw [hp, hshape]
    show (if (if cx = '/' then
          cleanLoop true (cx :: (xtail ++ '/' :: serSegs xs)).length 1 ['/']
            (xtail ++ '/' :: serSegs xs)
        else cleanLoop false (cx :: (xtail ++ '/' :: serSegs xs)).length 0 []
          (cx :: (xtail ++ '/' :: serSegs xs))) = []
      then ['.']
      else (if cx = '/' then
          cleanLoop true (cx :: (xtail ++ '/' :: serSegs xs)).length 1 ['/']
            (xtail ++ '/' :: serSegs xs)
        else cleanLoop false (cx :: (xtail ++ '/' :: serSegs xs)).length 0 []
          (cx :: (xtail ++ '/' :: serSegs xs))))
      = joinSegs (dotsPre lead ++ segs)
    rw [if_neg hcx]
    have hback : cx :: (xtail ++ '/' :: serSegs xs)
        = serSegs (dotsPre lead) ++ serSegs segs := hshape.symm
    rw [hback]
    have hdots := cleanLoop_consume_dots lead
      (serSegs (dotsPre lead) ++ serSegs segs).length 0 (serSegs segs) (le_refl _)
    have hdots2 : cleanLoop false (serSegs (dotsPre lead) ++ serSegs segs).length 0 []
        (serSegs (dotsPre lead) ++ serSegs segs)
        = cleanLoop false (serSegs segs).length (reprDD false lead) (reprOut false lead [])
          (serSegs segs) := by
      have h0 : (0 : Nat) + lead = lead := by omega
      rw [h0] at hdots
      exact hdots
    rw [hdots2]
    by_cases hsegs : segs = []
    · subst hsegs
      have hser : serSegs ([] : List (List Char)) = [] := rfl
      rw [hser, cleanLoop_nil]
      rw [reprOut_false, List.append_nil]
      rw [if_neg (by rw [List.append_nil] at hne; exact hne)]
    · have heq := cleanLoop_consume_segs false segs hgood (serSegs segs).length lead []
        (by simp) (by intro h; cases h) (le_refl _)
      rw [heq]
      rw [List.nil_append, reprOut_false]
      rw [if_neg hne]

/-- `path.Clean` output other than `"."`, with a slash appended, cleans to
itself. -/
theorem pathClean_fixpoint_slash (p : List Char) (h : pathClean p ≠ ['.']) :
    pathClean (pathClean p ++ ['/']) = pathClean p := by
  rcases pathClean_repr p with hdot | ⟨rooted, lead, segs, hg, hl, heq, hne⟩
  · exact absurd hdot h
  · rw [heq]
    exact pathClean_fix rooted lead segs hg hl hne

theorem normalizeMountPoint_eq (s : List Char) :
    normalizeMountPoint s =
      if pathClean s = ['.'] then .error .invalidMountPoint
      else if pathClean s ≠ ['/'] then .ok (pathClean s ++ ['/']) else .ok (pathClean s) := rfl

/-- Normalizing a normalized mount point yields it unchanged. -/
theorem normalizeMountPoint_idem {p q : List Char}
    (h : normalizeMountPoint p = .ok q) : normalizeMountPoint q = .ok q := by
  rw [normalizeMountPoint_eq] at h
  by_cases h1 : pathClean p = ['.']
  · rw [if_pos h1] at h
    cases h
  · rw [if_neg h1] at h
    by_cases h2 : pathClean p = ['/']
    · rw [if_neg (by rw [h2]; simp)] at h
      have hq : q = ['/'] := by
        rw [h2] at h
        cases h
        rfl
      subst hq
      rfl
    · rw [if_pos (by exact h2)] at h
      have hq : q = pathClean p ++ ['/'] := by
        cases h
        rfl
      subst hq
      rw [normalizeMountPoint_eq]
      rw [pathClean_fixpoint_slash p h1]
      rw [if_neg h1, if_pos (by exact h2)]

/-! ## The mount table invariant -/

/-- One call of the mount API. -/
inductive MountOp (α : Type) where
  | mount (point : List Char) (fs : α)
  | unmount (point : List Char)

/-- Execute one call; a call that returns an error leaves the state unchanged
(the Go functions return before mutating on every error path). -/
def applyOp (s : VFS α) : MountOp α → VFS α
  | .mount p fs =>
    match MountFileSystem s p fs with
    | .ok t => t
    | .error _ => s
  | .unmount p =>
    match UnmountFileSystem s p with
    | .ok t => t
    | .error _ => s

def runOps (s : VFS α) (ops : List (MountOp α)) : VFS α := ops.foldl applyOp s

/-- The mount-table invariant: the point list is sorted and duplicate-free,
lists exactly the keys of the mount map, and every listed point is a fixed
point of normalization. -/
def VFSInv (s : VFS α) : Prop :=
  List.Sorted (fun a b => strLe a b = true) s.points ∧ s.points.Nodup ∧
    (∀ q, q ∈ s.points ↔ (s.mounts q).isSome = true) ∧
    (∀ q ∈ s.points, normalizeMountPoint q = .ok q)

theorem VFSInv_empty (α : Type) : VFSInv (VFS.empty α) := by
  refine ⟨by simp [VFS.empty], by simp [VFS.empty], ?_, ?_⟩
  · intro q
    simp [VFS.empty]
  · intro q hq
    simp [VFS.empty] at hq

theorem lockedUnmount_eq (s : VFS α) (p p' : List Char)
    (hnorm : normalizeMountPoint p = .ok p') :
    lockedUnmountFileSystem s p
      = if (s.mounts p').isNone then .error .notMounted
        else .ok ⟨s.points.eraseIdx
            (sortSearch s.points.length (fun k => strLe p' (s.points.getD k []))),
          fun q => if q = p' then none else s.mounts q⟩ := by
  unfold lockedUnmountFileSystem
  rw [hnorm]

/-- A successful (locked) unmount removes exactly the normalized point from
the sorted point list and the mount map. -/
theorem lockedUnmount_spec (s : VFS α) (p p' : List Char) (hinv : VFSInv s)
    (hnorm : normalizeMountPoint p = .ok p') (hsome : (s.mounts p').isSome = true) :
    ∃ t, lockedUnmountFileSystem s p = .ok t ∧
      List.Sorted (fun a b => strLe a b = true) t.points ∧ t.points.Nodup ∧
      (∀ q, q ∈ t.points ↔ q ∈ s.points ∧ q ≠ p') ∧
      t.mounts = fun q => if q = p' then none else s.mounts q := by
  obtain ⟨hsort, hnodup, hmem, hnormpts⟩ := hinv
  have hp'mem : p' ∈ s.points := (hmem p').mpr hsome
  obtain ⟨k, hk, hgetk⟩ := List.mem_iff_getElem.mp hp'mem
  have hgetD : s.points.getD k [] = p' := by
    rw [List.getD_eq_getElem s.points [] hk]
    exact hgetk
  have hsearch : sortSearch s.points.length (fun i => strLe p' (s.points.getD i [])) = k :=
    sortSearch_eq_index_of_mem s.points p' hsort hnodup k hk hgetD
  rw [lockedUnmount_eq s p p' hnorm]
  rw [if_neg (by rw [Option.isNone_iff_eq_none]; intro hcon; rw [hcon] at hsome; simp at hsome)]
  refine ⟨_, rfl, ?_, ?_, ?_, rfl⟩
  · exact hsort.sublist (List.eraseIdx_sublist s.points _)
  · exact hnodup.sublist (List.eraseIdx_sublist s.points _)
  · intro q
    rw [hsearch]
    constructor
    · intro hq
      obtain ⟨i, hilen, hine, hgi⟩ := List.mem_eraseIdx_iff_getElem.mp hq
      constructor
      · rw [← hgi]
        exact List.getElem_mem hilen
      · intro hqp
        apply hine
        have hinj := List.pairwise_iff_get.mp hnodup
        rcases Nat.lt_trichotomy i k with h | h | h
        · exact absurd (hgetk ▸ hqp ▸ hgi) (by
            have h2 := hinj ⟨i, hilen⟩ ⟨k, hk⟩ h
            simpa using h2)
        · exact h
        · exact absurd (hgetk ▸ hqp ▸ hgi).symm (by
            have h2 := hinj ⟨k, hk⟩ ⟨i, hilen⟩ h
            simpa using h2)
    · intro hpair
      obtain ⟨hq, hqp⟩ := hpair
      obtain ⟨i, hi, hgi⟩ := List.mem_iff_getElem.mp hq
      apply List.mem_eraseIdx_iff_getElem.mpr
      refine ⟨i, hi, ?_, hgi⟩
      intro hik
      apply hqp
      rw [← hgi]
      subst hik
      exact hgetk

theorem applyOp_mount (s : VFS α) (p : List Char) (fs : α) :
    applyOp s (.mount p fs)
      = match MountFileSystem s p fs with | .ok t => t | .error _ => s := rfl

theorem applyOp_unmount (s : VFS α) (p : List Char) :
    applyOp s (.unmount p)
      = match UnmountFileSystem s p with | .ok t => t | .error _ => s := rfl

theorem mount_preserves (s : VFS α) (p : List Char) (fs : α) (hinv : VFSInv s) :
    VFSInv (applyOp s (.mount p fs)) := by
  cases hn : normalizeMountPoint p with
  | error e =>
    have hm : MountFileSystem s p fs = .error e := by
      unfold MountFileSystem
      rw [hn]
    have ha : applyOp s (.mount p fs) = s := by
      rw [applyOp_mount, hm]
    rw [ha]
    exact hinv
  | ok p' =>
    have hidem : normalizeMountPoint p' = .ok p' := normalizeMountPoint_idem hn
    obtain ⟨hsort, hnodup, hmem, hnormpts⟩ := hinv
    -- Describe the intermediate state s1 left by the implicit unmount.
    obtain ⟨s1, hs1eq, hs1sort, hs1nodup, hs1mem, hs1mounts⟩ :
        ∃ s1, (match lockedUnmountFileSystem s p' with | .ok t => t | .error _ => s) = s1 ∧
          List.Sorted (fun a b => strLe a b = true) s1.points ∧ s1.points.Nodup ∧
          (∀ q, q ∈ s1.points ↔ (q ∈ s.points ∧ q ≠ p')) ∧
          (∀ q, (s1.mounts q).isSome = true ↔ (q ≠ p' ∧ (s.mounts q).isSome = true)) := by
      by_cases hsome : (s.mounts p').isSome = true
      · obtain ⟨t, hteq, tsort, tnodup, tmem, tmounts⟩ :=
          lockedUnmount_spec s p' p' ⟨hsort, hnodup, hmem, hnormpts⟩ hidem hsome
        refine ⟨t, by rw [hteq], tsort, tnodup, tmem, ?_⟩
        intro q
        simp only [tmounts]
        by_cases hq : q = p'
        · rw [if_pos hq]
          simp [hq]
        · rw [if_neg hq]
          simp [hq]
      · have hnone : s.mounts p' = none := by
          cases hsc : s.mounts p' with
          | none => rfl
          | some v => rw [hsc] at hsome; simp at hsome
        have herr : lockedUnmountFileSystem s p' = .error .notMounted := by
          rw [lockedUnmount_eq s p' p' hidem]
          rw [if_pos (by rw [hnone]; rfl)]
        have hp'nmem : p' ∉ s.points := by
          intro hcon
          exact hsome ((hmem p').mp hcon)
        refine ⟨s, by rw [herr], hsort, hnodup, ?_, ?_⟩
        · intro q
          constructor
          · intro hq
            exact ⟨hq, fun hqp => hp'nmem (hqp ▸ hq)⟩
          · intro hq
            exact hq.1
        · intro q
          constructor
          · intro hq
            refine ⟨?_, hq⟩
            intro hqp
            rw [hqp, hnone] at hq
            simp at hq
          · intro hq
            exact hq.2
    have hm : MountFileSystem s p fs
        = .ok ⟨sortStrings (s1.points ++ [p']),
            fun q => if q = p' then some fs else s1.mounts q⟩ := by
      unfold MountFileSystem
      rw [hn, ← hs1eq]
    have ha : applyOp s (.mount p fs)
        = VFS.mk (sortStrings (s1.points ++ [p']))
            (fun q => if q = p' then some fs else s1.mounts q) := by
      rw [applyOp_mount, hm]
    rw [ha]
    have hp'ns1 : p' ∉ s1.points := by
      intro hcon
      exact ((hs1mem p').mp hcon).2 rfl
    have hperm : List.Perm (sortStrings (s1.points ++ [p'])) (s1.points ++ [p']) :=
      List.perm_insertionSort (fun a b => strLe a b = true) (s1.points ++ [p'])
    refine ⟨?_, ?_, ?_, ?_⟩
    · exact List.sorted_insertionSort (fun a b => strLe a b = true) (s1.points ++ [p'])
    · rw [hperm.nodup_iff]
      rw [List.nodup_append]
      refine ⟨hs1nodup, by simp, ?_⟩
      intro a ha1 ha2
      rw [List.mem_singleton] at ha2
      exact hp'ns1 (ha2 ▸ ha1)
    · intro q
      show q ∈ sortStrings (s1.points ++ [p'])
        ↔ (if q = p' then some fs else s1.mounts q).isSome = true
      rw [hperm.mem_iff]
      rw [List.mem_append, List.mem_singleton]
      by_cases hq : q = p'
      · rw [if_pos hq]
        simp [hq]
      · rw [if_neg hq]
        rw [hs1mem q]
        constructor
        · intro hin
          rcases hin with hin | hin
          · exact ((hs1mounts q).mpr ⟨hq, (hmem q).mp hin.1⟩)
          · exact absurd hin hq
        · intro hin
          exact Or.inl ⟨(hmem q).mpr ((hs1mounts q).mp hin).2, hq⟩
    · intro q hq
      rw [hperm.mem_iff, List.mem_append, List.mem_singleton] at hq
      rcases hq with hq | hq
      · exact hnormpts q ((hs1mem q).mp hq).1
      · rw [hq]
        exact hidem

theorem unmount_preserves (s : VFS α) (p : List Char) (hinv : VFSInv s) :
    VFSInv (applyOp s (.unmount p)) := by
  cases hn : normalizeMountPoint p with
  | error e =>
    have hm : UnmountFileSystem s p = .error e := by
      unfold UnmountFileSystem lockedUnmountFileSystem
      rw [hn]
    have ha : applyOp s (.unmount p) = s := by
      rw [applyOp_unmount, hm]
    rw [ha]
    exact hinv
  | ok p' =>
    obtain ⟨hsort, hnodup, hmem, hnormpts⟩ := hinv
    by_cases hsome : (s.mounts p').isSome = true
    · obtain ⟨t, hteq, tsort, tnodup, tmem, tmounts⟩ :=
        lockedUnmount_spec s p p' ⟨hsort, hnodup, hmem, hnormpts⟩ hn hsome
      have hteq2 : UnmountFileSystem s p = .ok t := hteq
      have ha : applyOp s (.unmount p) = t := by
        rw [applyOp_unmount, hteq2]
      rw [ha]
      refine ⟨tsort, tnodup, ?_, ?_⟩
      · intro q
        rw [tmem q]
        simp only [tmounts]
        by_cases hq : q = p'
        · rw [if_pos hq]
          simp [hq]
        · rw [if_neg hq]
          simp [hq, hmem q]
      · intro q hq
        exact hnormpts q ((tmem q).mp hq).1
    · have hnone : s.mounts p' = none := by
        cases hsc : s.mounts p' with
        | none => rfl
        | some v => rw [hsc] at hsome; simp at hsome
      have herr : UnmountFileSystem s p = .error .notMounted := by
        unfold UnmountFileSystem
        rw [lockedUnmount_eq s p p' hn]
        rw [if_pos (by rw [hnone]; rfl)]
      have ha : applyOp s (.unmount p) = s := by
        rw [applyOp_unmount, herr]
      rw [ha]
      exact ⟨hsort, hnodup, hmem, hnormpts⟩

theorem applyOp_preserves (s : VFS α) (op : MountOp α) (hinv : VFSInv s) :
    VFSInv (applyOp s op) := by
  cases op with
  | mount p fs => exact mount_preserves s p fs hinv
  | unmount p => exact unmount_preserves s p hinv

theorem runOps_inv {α : Type} (ops : List (MountOp α)) :
    ∀ s, VFSInv s → VFSInv (runOps s ops) := by
  induction ops with
  | nil => intro s h; exact h
  | cons op ops ih =>
    intro s h
    exact ih (applyOp s op) (applyOp_preserves s op h)

theorem goSearchLoop_one (f : Nat → Bool) :
    goSearchLoop f 1 0 1 = if f 0 = false then 1 else 0 := by
  show (if 0 < 1 then
      if f ((0 + 1) / 2) = false then goSearchLoop f 0 ((0 + 1) / 2 + 1) 1
      else goSearchLoop f 0 0 ((0 + 1) / 2)
    else 0) = if f 0 = false then 1 else 0
  rw [if_pos (by omega)]
  by_cases h : f ((0 + 1) / 2) = false
  · rw [if_pos h]
    have h0 : f 0 = false := h
    rw [if_pos h0]
    rfl
  · rw [if_neg h]
    have h0 : ¬ f 0 = false := h
    rw [if_neg h0]
    rfl

theorem sortSearch_def (n : Nat) (f : Nat → Bool) : sortSearch n f = goSearchLoop f n 0 n := rfl

theorem findVFSprefixIdx_eq (points : List (List Char)) (path : List Char) :
    findVFSprefixIdx points path =
      if points.length = 0 then -1
      else if sortSearch points.length (fun k => strLe path (points.getD k []))
          = points.length then
        if (points.getD (sortSearch points.length (fun k => strLe path (points.getD k [])) - 1)
            []).isPrefixOf path
        then ((sortSearch points.length (fun k => strLe path (points.getD k []))) : Int) - 1
        else -1
      else
        if (points.getD (sortSearch points.length (fun k => strLe path (points.getD k [])))
            []).isPrefixOf path
        then ((sortSearch points.length (fun k => strLe path (points.getD k []))) : Int)
        else -1 := rfl

theorem findVFSprefixIdx_singleton (p' path : List Char) (hpre : p'.isPrefixOf path = true) :
    findVFSprefixIdx [p'] path = 0 := by
  rw [findVFSprefixIdx_eq]
  rw [if_neg (by simp)]
  have hss : sortSearch ([p'] : List (List Char)).length
      (fun k => strLe path (([p'] : List (List Char)).getD k []))
      = if strLe path p' = false then 1 else 0 := by
    have h1 : sortSearch ([p'] : List (List Char)).length
        (fun k => strLe path (([p'] : List (List Char)).getD k []))
        = goSearchLoop (fun k => strLe path (([p'] : List (List Char)).getD k [])) 1 0 1 := rfl
    rw [h1, goSearchLoop_one]
    rfl
  rw [hss]
  by_cases hle : strLe path p' = false
  · rw [if_pos hle]
    rw [if_pos (by simp)]
    rw [if_pos (by simpa using hpre)]
    simp
  · rw [if_neg hle]
    rw [if_neg (by simp)]
    rw [if_pos (by simpa using hpre)]
    simp

theorem resolvePoint_eq (s : VFS α) (path : List Char) :
    resolvePoint s path =
      if findVFSprefixIdx s.points path < 0 then none
      else some (s.points.getD (findVFSprefixIdx s.points path).toNat []) := rfl

theorem resolveFS_eq (s : VFS α) (path : List Char) :
    resolveFS s path =
      match resolvePoint s path with
      | none => none
      | some p => s.mounts p := rfl

theorem resolveFS_singleton (p' path : List Char) (m : List Char → Option α)
    (hpre : p'.isPrefixOf path = true) :
    resolveFS (VFS.mk [p'] m) path = m p' := by
  rw [resolveFS_eq]
  have hrp : resolvePoint (VFS.mk [p'] m) path = some p' := by
    rw [resolvePoint_eq]
    have hidx : findVFSprefixIdx (VFS.mk [p'] m).points path = 0 :=
      findVFSprefixIdx_singleton p' path hpre
    rw [hidx]
    rw [if_neg (by omega)]
    rfl
  rw [hrp]

theorem mount_eq (s : VFS α) (p p' : List Char) (fs : α)
    (hnorm : normalizeMountPoint p = .ok p') :
    MountFileSystem s p fs
      = .ok ⟨sortStrings ((match lockedUnmountFileSystem s p' with
              | .ok t => t
              | .error _ => s).points ++ [p']),
          fun q => if q = p' then some fs
            else (match lockedUnmountFileSystem s p' with
              | .ok t => t
              | .error _ => s).mounts q⟩ := by
  unfold MountFileSystem
  rw [hnorm]

/-- C5: mounting the same point twice keeps a single entry for the
normalized point, maps it to the second provider, and every resolve under
the point yields the second provider. -/
theorem mount_replaces_provider {α : Type} (p p' : List Char) (f1 f2 : α)
    (hnorm : normalizeMountPoint p = .ok p') :
    (mountD (mountD (VFS.empty α) p f1) p f2).points = [p'] ∧
      (mountD (mountD (VFS.empty α) p f1) p f2).mounts p' = some f2 ∧
      ∀ path, p'.isPrefixOf path = true →
        resolveFS (mountD (mountD (VFS.empty α) p f1) p f2) path = some f2 := by
  have hidem : normalizeMountPoint p' = .ok p' := normalizeMountPoint_idem hnorm
  have herr1 : lockedUnmountFileSystem (VFS.empty α) p' = .error .notMounted := by
    rw [lockedUnmount_eq (VFS.empty α) p' p' hidem]
    rw [if_pos (show ((VFS.empty α).mounts p').isNone = true from rfl)]
  have h1 : mountD (VFS.empty α) p f1
      = VFS.mk [p'] (fun q => if q = p' then some f1 else none) := by
    have hm1 : MountFileSystem (VFS.empty α) p f1
        = .ok (VFS.mk [p'] (fun q => if q = p' then some f1 else none)) := by
      rw [mount_eq (VFS.empty α) p p' f1 hnorm, herr1]
      rfl
    unfold mountD
    rw [hm1]
  have hsearch : sortSearch (VFS.mk [p'] (fun q => if q = p' then some f1 else none)).points.length
      (fun k => strLe p'
        ((VFS.mk [p'] (fun q => if q = p' then some f1 else none)).points.getD k [])) = 0 := by
    have h2 : sortSearch (VFS.mk [p'] (fun q => if q = p' then some f1 else none)).points.length
        (fun k => strLe p'
          ((VFS.mk [p'] (fun q => if q = p' then some f1 else none)).points.getD k []))
        = goSearchLoop (fun k => strLe p' (([p'] : List (List Char)).getD k [])) 1 0 1 := rfl
    rw [h2, goSearchLoop_one]
    have h3 : strLe p' (([p'] : List (List Char)).getD 0 []) = true := by
      have h30 : ([p'] : List (List Char)).getD 0 [] = p' := rfl
      rw [h30]
      exact strLe_refl p'
    rw [if_neg (by rw [h3]; simp)]
  have hlu2 : lockedUnmountFileSystem
      (VFS.mk [p'] (fun q => if q = p' then some f1 else none)) p'
      = .ok (VFS.mk []
          (fun q => if q = p' then none else if q = p' then some f1 else none)) := by
    rw [lockedUnmount_eq _ p' p' hidem]
    rw [if_neg (by simp)]
    rw [hsearch]
    rfl
  have h2 : mountD (VFS.mk [p'] (fun q => if q = p' then some f1 else none)) p f2
      = VFS.mk [p']
          (fun q => if q = p' then some f2
            else if q = p' then none else if q = p' then some f1 else none) := by
    have hm2 : MountFileSystem (VFS.mk [p'] (fun q => if q = p' then some f1 else none)) p f2
        = .ok (VFS.mk [p']
            (fun q => if q = p' then some f2
              else if q = p' then none else if q = p' then some f1 else none)) := by
      rw [mount_eq _ p p' f2 hnorm, hlu2]
      rfl
    unfold mountD
    rw [hm2]
  rw [h1, h2]
  refine ⟨rfl, by simp, ?_⟩
  intro path hpre
  rw [resolveFS_singleton p' path _ hpre]
  simp

/-- C5 witness at a concrete mount point and providers. -/
theorem mount_replaces_provider_witness :
    normalizeMountPoint "/m".data = .ok "/m/".data ∧
      (mountD (mountD (VFS.empty Nat) "/m".data 1) "/m".data 2).points = ["/m/".data] ∧
      (mountD (mountD (VFS.empty Nat) "/m".data 1) "/m".data 2).mounts "/m/".data = some 2 ∧
      resolveFS (mountD (mountD (VFS.empty Nat) "/m".data 1) "/m".data 2) "/m/file".data
        = some 2 := by
  have h := mount_replaces_provider "/m".data "/m/".data 1 2 rfl
  exact ⟨rfl, h.1, h.2.1, h.2.2 "/m/file".data (by decide)⟩

/-- C8: after any sequence of mount/unmount calls starting from the empty
table, the mount-point list is in lexicographic sorted order and contains at
most one entry per normalized point. -/
theorem mount_points_sorted_nodup {α : Type} (ops : List (MountOp α)) :
    List.Sorted (fun a b => strLe a b = true) (runOps (VFS.empty α) ops).points ∧
      (runOps (VFS.empty α) ops).points.Nodup := by
  have h := runOps_inv ops (VFS.empty α) (VFSInv_empty α)
  exact ⟨h.1, h.2.1⟩

/-! ## Claim theorems for the driver hooks -/

theorem nat_or_eq_zero_iff (x y : Nat) : x ||| y = 0 ↔ x = 0 ∧ y = 0 := by
  constructor
  · intro h
    constructor
    · apply Nat.zero_of_testBit_eq_false
      intro i
      have ht : (x ||| y).testBit i = false := by rw [h]; exact Nat.zero_testBit i
      rw [Nat.testBit_lor] at ht
      exact (Bool.or_eq_false_iff.mp ht).1
    · apply Nat.zero_of_testBit_eq_false
      intro i
      have ht : (x ||| y).testBit i = false := by rw [h]; exact Nat.zero_testBit i
      rw [Nat.testBit_lor] at ht
      exact (Bool.or_eq_false_iff.mp ht).2
  · intro h
    rw [h.1, h.2]
    decide

theorem and_mask_333 (mode : Nat) :
    (mode &&& 0o333 ≠ 0) ↔ (mode &&& 0o222 ≠ 0 ∨ mode &&& 0o111 ≠ 0) := by
  have h1 : (0o333 : Nat) = 0o222 ||| 0o111 := by decide
  rw [h1, Nat.and_or_distrib_left]
  rw [← not_and_or]
  rw [not_iff_not]
  exact nat_or_eq_zero_iff (mode &&& 0o222) (mode &&& 0o111)

theorem vfsAccess_eq (s : VFS FileSystem) (path : List Char) (mode : Nat) :
    vfsAccess s path mode =
      match vfsFileInfo s path with
      | .panicked => .panicked
      | .ok none => .ok (-1)
      | .ok (some fi) =>
        if fi.isDir then
          if mode &&& 0o222 ≠ 0 then .ok (-1) else .ok 0
        else
          if mode &&& 0o333 ≠ 0 then .ok (-1) else .ok 0 := rfl

theorem vfsAccess_ok_some (s : VFS FileSystem) (path : List Char) (mode : Nat) (fi : FInfo)
    (hfi : vfsFileInfo s path = .ok (some fi)) :
    vfsAccess s path mode =
      if fi.isDir then
        if mode &&& 0o222 ≠ 0 then .ok (-1) else .ok 0
      else
        if mode &&& 0o333 ≠ 0 then .ok (-1) else .ok 0 := by
  rw [vfsAccess_eq, hfi]

theorem vfsAccess_ok_none (s : VFS FileSystem) (path : List Char) (mode : Nat)
    (hfi : vfsFileInfo s path = .ok none) :
    vfsAccess s path mode = .ok (-1) := by
  rw [vfsAccess_eq, hfi]

/-- C4: for a path that exists under a mounted provider the access hook
denies any request containing write permission, denies execute permission on
non-directories, and grants requests containing only read (and, for
directories, search) permission; for a path the provider cannot open or stat
it returns the failure value -1. -/
theorem vfsAccess_readonly_spec (s : VFS FileSystem) (path : List Char) (mode : Nat) :
    (∀ fi, vfsFileInfo s path = .ok (some fi) → mode &&& 0o222 ≠ 0 →
      vfsAccess s path mode = .ok (-1)) ∧
    (∀ fi, vfsFileInfo s path = .ok (some fi) → fi.isDir = false → mode &&& 0o111 ≠ 0 →
      vfsAccess s path mode = .ok (-1)) ∧
    (∀ fi, vfsFileInfo s path = .ok (some fi) → mode &&& 0o222 = 0 →
      (fi.isDir = true ∨ mode &&& 0o111 = 0) → vfsAccess s path mode = .ok 0) ∧
    (vfsFileInfo s path = .ok none → vfsAccess s path mode = .ok (-1)) := by
  refine ⟨?_, ?_, ?_, ?_⟩
  · intro fi hfi hw
    rw [vfsAccess_ok_some s path mode fi hfi]
    cases hdir : fi.isDir with
    | true => simp [hdir, hw]
    | false =>
      have h333 : mode &&& 0o333 ≠ 0 := (and_mask_333 mode).mpr (Or.inl hw)
      simp [hdir, h333]
  · intro fi hfi hdir hx
    rw [vfsAccess_ok_some s path mode fi hfi]
    have h333 : mode &&& 0o333 ≠ 0 := (and_mask_333 mode).mpr (Or.inr hx)
    simp [hdir, h333]
  · intro fi hfi hw hor
    rw [vfsAccess_ok_some s path mode fi hfi]
    cases hdir : fi.isDir with
    | true => simp [hdir, hw]
    | false =>
      have hx : mode &&& 0o111 = 0 := by
        rcases hor with h | h
        · rw [hdir] at h; simp at h
        · exact h
      have h333 : mode &&& 0o333 = 0 := by
        by_contra hc
        rcases (and_mask_333 mode).mp hc with h | h
        · exact h hw
        · exact h hx
      simp [hdir, h333]
  · intro hfi
    exact vfsAccess_ok_none s path mode hfi

/-! Concrete provider fixtures used by the witnesses and counterexamples. -/

/-- A regular file of 12 bytes whose provider-reported mode is 0777
(read, write and execute for everyone; the directory bit is clear). -/
def c3fi : FInfo := ⟨12, 0, 0o777⟩

/-- A directory entry (Go `os.ModeDir` bit plus permissions 0555). -/
def c3di : FInfo := ⟨0, 0, 2 ^ 31 + 0o555⟩

/-- Provider with the file at `/r.txt` and a directory at `/logs/`. -/
def c3fs : FileSystem := fun q =>
  if q = "/r.txt".data then some ⟨some c3fi⟩
  else if q = "/logs/".data then some ⟨some c3di⟩
  else none

/-- The mount table after `MountFileSystem("/m", c3fs)`. -/
def c3state : VFS FileSystem := mountD (VFS.empty FileSystem) "/m".data c3fs

/-- C4 witness: on the concrete state, write is denied, execute on the file
is denied, read succeeds, and a missing path fails. -/
theorem vfsAccess_readonly_spec_witness :
    vfsAccess c3state "/m/r.txt".data 2 = .ok (-1) ∧
      vfsAccess c3state "/m/r.txt".data 1 = .ok (-1) ∧
      vfsAccess c3state "/m/r.txt".data 4 = .ok 0 ∧
      vfsAccess c3state "/m/logs".data 1 = .ok 0 ∧
      vfsAccess c3state "/m/zzz".data 4 = .ok (-1) := by
  refine ⟨?_, ?_, ?_, ?_, ?_⟩
  · exact (vfsAccess_readonly_spec c3state "/m/r.txt".data 2).1 c3fi rfl (by decide)
  · exact (vfsAccess_readonly_spec c3state "/m/r.txt".data 1).2.1 c3fi rfl (by decide) (by decide)
  · exact (vfsAccess_readonly_spec c3state "/m/r.txt".data 4).2.2.1 c3fi rfl (by decide)
      (Or.inr (by decide))
  · exact (vfsAccess_readonly_spec c3state "/m/logs".data 1).2.2.1 c3di rfl (by decide)
      (Or.inl (by decide))
  · exact (vfsAccess_readonly_spec c3state "/m/zzz".data 4).2.2.2 rfl

/-- C3 counterexample: the provider reports mode 0777 for `/r.txt`; the stat
hook succeeds and the mode word it stores contains write and execute
permission bits, refuting "the mode never contains write or execute
permission".  (It also stores no POSIX directory bit for `/logs`: the Go
`os.ModeDir` flag, bit 31, is copied verbatim.) -/
theorem vfsStat_mode_passthrough_counterexample :
    vfsStat c3state "/m/r.txt".data = .ok (some ⟨0, 0, 0, 0o777, 12⟩) ∧
      (0o777 : Nat) &&& 0o222 ≠ 0 ∧ (0o777 : Nat) &&& 0o111 ≠ 0 ∧
      vfsStat c3state "/m/logs".data = .ok (some ⟨0, 0, 0, 2 ^ 31 + 0o555, 0⟩) := by
  exact ⟨rfl, by decide, by decide, rfl⟩

/-- C3 amended: on every path that stats successfully the stat hook fills
the size from the provider's size, all three time fields from the provider's
modification time, and stores the provider's reported mode word verbatim
(reduced mod 2^32 for the unsigned native mode type); it derives no
permission bits of its own. -/
theorem vfsStat_copies_provider_fields (s : VFS FileSystem) (path : List Char) (fi : FInfo)
    (h : vfsFileInfo s path = .ok (some fi)) :
    vfsStat s path
      = .ok (some ⟨fi.modTimeUnix, fi.modTimeUnix, fi.modTimeUnix,
          fi.mode % 2 ^ 32, fi.size⟩) := by
  unfold vfsStat
  rw [h]

/-- C3 witness at the concrete state. -/
theorem vfsStat_copies_provider_fields_witness :
    vfsFileInfo c3state "/m/r.txt".data = .ok (some c3fi) ∧
      vfsStat c3state "/m/r.txt".data
        = .ok (some ⟨c3fi.modTimeUnix, c3fi.modTimeUnix, c3fi.modTimeUnix,
            c3fi.mode % 2 ^ 32, c3fi.size⟩) :=
  ⟨rfl, vfsStat_copies_provider_fields c3state "/m/r.txt".data c3fi rfl⟩

/-- Provider with no entries at all: every open fails. -/
def c2fs : FileSystem := fun _ => none

/-- The mount table after `MountFileSystem("/m", c2fs)`. -/
def c2state : VFS FileSystem := mountD (VFS.empty FileSystem) "/m".data c2fs

/-- C2: evaluation at the failing input.  The path `/m/x` resolves to the
mount point `/m/`, the provider open of `/x` fails, the retry with a
trailing slash (`/x/`) also fails — so `vfsFile` returns nil — and
`vfsOpenFileChannel` then executes `panic(todo("%q", path))` instead of
reporting the failure through the status-code convention. -/
theorem vfsOpenFileChannel_panics_on_failed_open :
    resolvePoint c2state "/m/x".data = some "/m/".data ∧
      c2fs "/x".data = none ∧ c2fs "/x/".data = none ∧
      vfsFile c2state "/m/x".data = .ok none ∧
      vfsOpenFileChannel c2state "/m/x".data = .panicked :=
  ⟨rfl, rfl, rfl, rfl, rfl⟩

/-- C1: evaluation at the failing input.  With `/a/` and `/b/` mounted,
`/a/` is a currently-mounted point and a prefix of `/a/x`, yet
`findVFSprefix` reports not-found (-1): the binary search finds insertion
position 1 for `/a/x` and the code then tests the point at position 1
(`/b/`) rather than the one immediately before it (`/a/`). -/
theorem findVFSprefix_misses_covering_mount :
    (mountD (mountD (VFS.empty Nat) "/a".data 1) "/b".data 2).points
        = ["/a/".data, "/b/".data] ∧
      ("/a/".data).isPrefixOf "/a/x".data = true ∧
      sortSearch 2 (fun k => strLe "/a/x".data (["/a/".data, "/b/".data].getD k [])) = 1 ∧
      findVFSprefixIdx ["/a/".data, "/b/".data] "/a/x".data = -1 ∧
      resolveFS (mountD (mountD (VFS.empty Nat) "/a".data 1) "/b".data 2) "/a/x".data
        = (none : Option Nat) := by
  refine ⟨?_, by decide, by decide, by decide, ?_⟩
  · rfl
  · rfl

/-- C6: with exactly `/pkg/` and `/pkg/sub/` mounted, resolving
`/pkg/sub/file` selects the point `/pkg/sub/` (and hence its provider), not
`/pkg/`. -/
theorem nested_mount_resolution :
    (mountD (mountD (VFS.empty Nat) "/pkg".data 1) "/pkg/sub".data 2).points
        = ["/pkg/".data, "/pkg/sub/".data] ∧
      resolvePoint (mountD (mountD (VFS.empty Nat) "/pkg".data 1) "/pkg/sub".data 2)
          "/pkg/sub/file".data = some "/pkg/sub/".data ∧
      resolveFS (mountD (mountD (VFS.empty Nat) "/pkg".data 1) "/pkg/sub".data 2)
          "/pkg/sub/file".data = some 2 :=
  ⟨rfl, rfl, rfl⟩

/-- C7: the mount point is normalized by `path.Clean`; the clean of the
empty string is `"."`; a point whose clean is `"."` is rejected as invalid;
otherwise the stored point is the cleaned path with `"/"` appended unless
the cleaned path is the root `"/"` itself. -/
theorem normalizeMountPoint_spec :
    pathClean [] = ['.'] ∧
      ∀ s : List Char,
        ((normalizeMountPoint s = .error .invalidMountPoint) ↔ pathClean s = ['.']) ∧
        (pathClean s ≠ ['.'] →
          normalizeMountPoint s
            = .ok (if pathClean s = ['/'] then ['/'] else pathClean s ++ ['/'])) := by
  refine ⟨rfl, ?_⟩
  intro s
  rw [normalizeMountPoint_eq]
  by_cases h1 : pathClean s = ['.']
  · rw [if_pos h1]
    exact ⟨⟨fun _ => h1, fun _ => rfl⟩, fun hc => absurd h1 hc⟩
  · rw [if_neg h1]
    constructor
    · constructor
      · intro hcon
        by_cases h2 : pathClean s = ['/']
        · rw [if_neg (by rw [h2]; simp)] at hcon
          cases hcon
        · rw [if_pos (by exact h2)] at hcon
          cases hcon
      · intro hcon
        exact absurd hcon h1
    · intro _
      by_cases h2 : pathClean s = ['/']
      · rw [if_neg (by rw [h2]; simp), if_pos h2, h2]
      · rw [if_pos (by exact h2), if_neg h2]

/-- C7 witness: a point that cleans to a non-root path is stored with one
trailing slash; the empty input cleans to `"."`. -/
theorem normalizeMountPoint_spec_witness :
    pathClean "/a//b/".data ≠ ['.'] ∧
      normalizeMountPoint "/a//b/".data
        = .ok (if pathClean "/a//b/".data = ['/'] then ['/']
            else pathClean "/a//b/".data ++ ['/']) :=
  ⟨by decide, (normalizeMountPoint_spec.2 "/a//b/".data).2 (by decide)⟩

theorem channelInput_eq (bufIsNull : Bool) (toRead : Int) (n : Nat) (err : Option IOErr) :
    channelInput bufIsNull toRead n err =
      if bufIsNull = true ∨ toRead = 0 then 0
      else if n ≠ 0 then int32ofNat n
      else if err ≠ none ∧ err ≠ some .eof then -1
      else 0 := rfl

/-- C9: a null buffer or a zero byte count is a no-op returning 0;
end-of-stream with no bytes transferred is reported as 0, not as an error;
any other failure with no bytes transferred is reported as the negative
value -1. -/
theorem channelInput_spec (bufIsNull : Bool) (toRead : Int) (n : Nat) (err : Option IOErr) :
    ((bufIsNull = true ∨ toRead = 0) → channelInput bufIsNull toRead n err = 0) ∧
      (n = 0 → err = some .eof → channelInput bufIsNull toRead n err = 0) ∧
      (n = 0 → err = none → channelInput bufIsNull toRead n err = 0) ∧
      (bufIsNull = false → toRead ≠ 0 → n = 0 → err = some .other →
        channelInput bufIsNull toRead n err = -1) := by
  refine ⟨?_, ?_, ?_, ?_⟩
  · intro h
    rw [channelInput_eq, if_pos h]
  · intro hn herr
    rw [channelInput_eq]
    by_cases h : bufIsNull = true ∨ toRead = 0
    · rw [if_pos h]
    · rw [if_neg h]
      rw [if_neg (by rw [hn]; simp)]
      rw [if_neg (by rw [herr]; simp)]
  · intro hn herr
    rw [channelInput_eq]
    by_cases h : bufIsNull = true ∨ toRead = 0
    · rw [if_pos h]
    · rw [if_neg h]
      rw [if_neg (by rw [hn]; simp)]
      rw [if_neg (by rw [herr]; simp)]
  · intro h1 h2 hn herr
    rw [channelInput_eq]
    rw [if_neg (by rw [h1]; simp [h2])]
    rw [if_neg (by rw [hn]; simp)]
    rw [if_pos (by rw [herr]; simp)]

/-- C9 witness on concrete calls. -/
theorem channelInput_spec_witness :
    channelInput true 5 3 none = 0 ∧
      channelInput false 5 0 (some .eof) = 0 ∧
      channelInput false 5 0 (some .other) = -1 :=
  ⟨(channelInput_spec true 5 3 none).1 (Or.inl rfl),
    (channelInput_spec false 5 0 (some .eof)).2.1 rfl rfl,
    (channelInput_spec false 5 0 (some .other)).2.2.2 rfl (by decide) rfl rfl⟩

theorem int32ofNat_eq (n : Nat) :
    int32ofNat n =
      if n % 2 ^ 32 < 2 ^ 31 then ((n % 2 ^ 32 : Nat) : Int)
      else ((n % 2 ^ 32 : Nat) : Int) - 2 ^ 32 := rfl

/-- C10: when the host stream's read delivers n > 0 bytes, the input hook
returns n regardless of any error returned alongside (the error is not
reported on that call; a later call with no bytes transferred reports it).
`n < 2^31` is the io.Reader contract `n ≤ len(buf) = toRead ≤ MaxInt32`. -/
theorem channelInput_partial_read_returns_n (bufIsNull : Bool) (toRead : Int) (n : Nat)
    (err : Option IOErr) (h1 : bufIsNull = false) (h2 : toRead ≠ 0) (h3 : 0 < n)
    (h4 : n < 2 ^ 31) :
    channelInput bufIsNull toRead n err = (n : Int) := by
  rw [channelInput_eq]
  rw [if_neg (by rw [h1]; simp [h2])]
  rw [if_pos (by omega)]
  rw [int32ofNat_eq]
  have hm : n % 2 ^ 32 = n := Nat.mod_eq_of_lt (by omega)
  rw [hm]
  rw [if_pos h4]

/-- C10 witness: 3 bytes read together with a non-EOF error still returns 3. -/
theorem channelInput_partial_read_returns_n_witness :
    channelInput false 10 3 (some .other) = 3 :=
  channelInput_partial_read_returns_n false 10 3 (some .other) rfl (by decide) (by decide)
    (by decide)
